import Mathlib

/-!
Wombat: dependency walk, dynamic message builder and connection controller.

A shallow embedding of `internal/app/proto.go` and
`internal/app/workspace_controller.go`, with the properties proved about it.
-/

namespace Wombat

/-! ## File descriptors (`proto.go`) -/

/-- A finite set of `n` file descriptors. `name` is `fd.GetName()` and `deps` is
`fd.GetDependencies()`; cycles and diamonds are allowed, and two descriptors may
carry the same name. -/
structure FileGraph (n : Nat) where
  name : Fin n → String
  deps : Fin n → List (Fin n)

/-- The `for ... { fds = append(fds, walk(seen, dep)...) }` loop with a shared
seen-set; it is the loop of `walkFileDescriptors` (lines 84-87) and also the loop of
`protoFilesFromDisk` (lines 68-70) and `protoFilesFromReflectionAPI` (lines 34-40).
`walk` is the callee; `none` means the callee did not return. -/
def walkLoop {n : Nat} (walk : List String → Fin n → Option (List String × List (Fin n))) :
    List String → List (Fin n) → List (Fin n) → Option (List String × List (Fin n))
  | seen, fds, [] => some (seen, fds)
  | seen, fds, dep :: rest =>
    match walk seen dep with
    | none => none
    | some (seen1, deps) => walkLoop walk seen1 (fds ++ deps) rest

/-- The function `walkFileDescriptors` of `proto.go`. The Go map `seen` is mutated in
place, so it is threaded through: the result is the final seen-set and the emitted
list. The first argument bounds the recursion depth; `none` is "depth exhausted". -/
def walkFileDescriptors {n : Nat} (g : FileGraph n) :
    Nat → List String → Fin n → Option (List String × List (Fin n))
  | 0, _, _ => none
  | fuel + 1, seen, fd =>
    if g.name fd ∈ seen then some (seen, [])
    else walkLoop (walkFileDescriptors g fuel) (g.name fd :: seen) [fd] (g.deps fd)

/-- The aggregation done by `protoFilesFromDisk` and `protoFilesFromReflectionAPI`:
a fresh seen-set, an empty `fdset.File`, and one walk per root, in order. -/
def fileDescriptorSet {n : Nat} (g : FileGraph n) (fuel : Nat) (roots : List (Fin n)) :
    Option (List String × List (Fin n)) :=
  walkLoop (walkFileDescriptors g fuel) [] [] roots

/-- Number of descriptors of the graph whose name is not yet in the seen-set. -/
def unseen {n : Nat} (g : FileGraph n) (seen : List String) : Nat :=
  (List.finRange n).countP (fun i => decide (g.name i ∉ seen))

/-- The relation `x` depends on `y`, directly. -/
def DependsOn {n : Nat} (g : FileGraph n) (x y : Fin n) : Prop := y ∈ g.deps x

/-- The relation `y` is reachable from `x` through dependencies (zero or more steps). -/
def Reaches {n : Nat} (g : FileGraph n) (x y : Fin n) : Prop :=
  Relation.ReflTransGen (DependsOn g) x y

/-- A three-file graph with a cycle `a → b → c → a` and a diamond on `c`. -/
def cyclicGraph : FileGraph 3 where
  name := fun i => match i with
    | 0 => "a.proto" | 1 => "b.proto" | 2 => "c.proto"
  deps := fun i => match i with
    | 0 => [1, 2] | 1 => [2, 0] | 2 => [0]

/-- What a completed walk started with seen-set `seen` from the files `starts`
guarantees about its final seen-set `seen1` and its emitted list `out`. -/
structure WalkOk {n : Nat} (g : FileGraph n) (starts : List (Fin n))
    (seen seen1 : List String) (out : List (Fin n)) : Prop where
  seen_iff : ∀ s, s ∈ seen1 ↔ s ∈ seen ∨ s ∈ out.map g.name
  nodup : (out.map g.name).Nodup
  fresh : ∀ x ∈ out, g.name x ∉ seen
  starts_seen : ∀ r ∈ starts, g.name r ∈ seen1
  deps_seen : ∀ x ∈ out, ∀ d ∈ g.deps x, g.name d ∈ seen1
  reach : ∀ x ∈ out, ∃ r ∈ starts, Reaches g r x

/-- The protobuf field kinds, `descriptor.FieldDescriptorProto_Type`. -/
inductive FieldType where
  | TYPE_DOUBLE | TYPE_FLOAT | TYPE_INT64 | TYPE_UINT64 | TYPE_INT32 | TYPE_FIXED64
  | TYPE_FIXED32 | TYPE_BOOL | TYPE_STRING | TYPE_GROUP | TYPE_MESSAGE | TYPE_BYTES
  | TYPE_UINT32 | TYPE_ENUM | TYPE_SFIXED32 | TYPE_SFIXED64 | TYPE_SINT32 | TYPE_SINT64
  deriving DecidableEq, Repr

/-- The two failures of Go's `strconv` integer parsing. -/
inductive NumError where
  | ErrSyntax
  | ErrRange
  deriving DecidableEq, Repr

/-- The bytes of a Go string, `[]byte(s)`: the UTF-8 encoding of the text. -/
def bytesOf (s : String) : List UInt8 := s.toUTF8.data.toList

/-- The `cutoff` of `strconv.ParseUint` for base 10: `maxUint64/10 + 1`. -/
def cutoff10 : Nat := (2 ^ 64 - 1) / 10 + 1

/-- The digit value `strconv.ParseUint` assigns to a byte: `c - '0'` for a decimal
digit, `lower(c) - 'a' + 10` for a letter (`lower(c) = c | 0x20`), none otherwise. -/
def digitOf (c : UInt8) : Option Nat :=
  if 48 ≤ c.toNat ∧ c.toNat ≤ 57 then some (c.toNat - 48)
  else if 97 ≤ (c.toNat ||| 32) ∧ (c.toNat ||| 32) ≤ 122 then some ((c.toNat ||| 32) - 97 + 10)
  else none

/-- The digit loop of `strconv.ParseUint` in base 10; `n` is the `uint64` accumulator
and `maxVal = 1<<bitSize - 1`. -/
def parseUintLoop (maxVal : Nat) : Nat → List UInt8 → Nat × Option NumError
  | n, [] => (n, none)
  | n, c :: cs =>
    match digitOf c with
    | none => (0, some NumError.ErrSyntax)
    | some d =>
      if d ≥ 10 then (0, some NumError.ErrSyntax)
      else if n ≥ cutoff10 then (maxVal, some NumError.ErrRange)
      else
        let n10 := (n * 10) % 2 ^ 64
        let n1 := (n10 + d) % 2 ^ 64
        if n1 < n10 ∨ n1 > maxVal then (maxVal, some NumError.ErrRange)
        else parseUintLoop maxVal n1 cs

/-- Go's `strconv.ParseUint(s, 10, bitSize)` on the bytes of `s`, for
`0 < bitSize ≤ 64`: the returned value and the error. -/
def parseUintBytes (bs : List UInt8) (bitSize : Nat) : Nat × Option NumError :=
  if bs = [] then (0, some NumError.ErrSyntax)
  else parseUintLoop (2 ^ bitSize - 1) 0 bs

/-- Go's `strconv.ParseUint(s, 10, bitSize)`. -/
def ParseUint (s : String) (bitSize : Nat) : Nat × Option NumError :=
  parseUintBytes (bytesOf s) bitSize

/-- The Go conversion `int64(x)`: two's complement wrap to 64 bits. -/
def toInt64 (x : Int) : Int := (x + 2 ^ 63) % 2 ^ 64 - 2 ^ 63

/-- The Go conversion `int32(x)`. -/
def toInt32 (x : Int) : Int := (x + 2 ^ 31) % 2 ^ 32 - 2 ^ 31

/-- The Go conversion `uint32(x)`. -/
def toUint32 (x : Nat) : Nat := x % 2 ^ 32

/-- Go's `strconv.ParseInt(s, 10, bitSize)` for `0 < bitSize ≤ 64`: an optional
sign, then `ParseUint` on the rest, then the range check against `1 << (bitSize-1)`. -/
def ParseInt (s : String) (bitSize : Nat) : Int × Option NumError :=
  match bytesOf s with
  | [] => (0, some NumError.ErrSyntax)
  | c :: rest =>
    let neg := decide (c = 45)
    let body := if c = 43 ∨ c = 45 then rest else c :: rest
    let r := parseUintBytes body bitSize
    if r.2 = some NumError.ErrSyntax then (0, some NumError.ErrSyntax)
    else
      let cutoff : Nat := 2 ^ (bitSize - 1)
      if neg = false ∧ r.1 ≥ cutoff then (toInt64 (cutoff - 1 : Nat), some NumError.ErrRange)
      else if neg = true ∧ r.1 > cutoff then (toInt64 (- toInt64 (cutoff : Nat)), some NumError.ErrRange)
      else
        let n := toInt64 r.1
        (if neg then toInt64 (- n) else n, none)

/-- Go's `strconv.ParseBool`. -/
def ParseBool (str : String) : Bool × Option NumError :=
  if str = "1" ∨ str = "t" ∨ str = "T" ∨ str = "true" ∨ str = "TRUE" ∨ str = "True" then
    (true, none)
  else if str = "0" ∨ str = "f" ∨ str = "F" ∨ str = "false" ∨ str = "FALSE"
      ∨ str = "False" then
    (false, none)
  else (false, some NumError.ErrSyntax)

/-- Floating point is outside the embedding. `parseFloat val bitSize` stands for the
bit pattern of the value returned by `strconv.ParseFloat(val, bitSize)`, `narrow`
for the conversion `float32(v)` and `widen` for the conversion `float64(v)` of a
`float32`. -/
structure FloatConv where
  parseFloat : String → Nat → Nat
  narrow : Nat → Nat
  widen : Nat → Nat

/-! ## The dynamic message library (`github.com/jhump/protoreflect`)

The part of `desc` and `dynamic` that `processMessage` reaches through
`dynamic.NewMessage` and `SetFieldByNumber`, and that reading a field back with
`GetFieldByNumber` reaches. -/

mutual
/-- The values `processMessage` hands to `SetFieldByNumber` in an `interface{}`:
what `parseStringValue` returns, a built message, or a `[]interface{}` of these. -/
inductive DynValue where
  | float64 (bits : Nat)
  | float32 (bits : Nat)
  | int32 (v : Int)
  | int64 (v : Int)
  | uint32 (v : Nat)
  | uint64 (v : Nat)
  | bool (b : Bool)
  | bytes (b : List UInt8)
  | string (s : String)
  | message (m : DynMessage)
  | slice (items : List DynValue)
/-- A `dynamic.Message`: its message descriptor and the table `values` of the values
stored under field numbers. -/
inductive DynMessage where
  | mk (md : MessageDescriptor) (values : List (Int × AnyValue))
/-- What the table of a `dynamic.Message` holds and `GetFieldByNumber` returns: a
value as above, the `map[interface{}]interface{}` of a map field, or, for a message
field that is not set, the library's stand-in (a nil message under proto3, a new
empty message otherwise) of the field's message type. -/
inductive AnyValue where
  | value (v : DynValue)
  | mapValue (entries : List (AnyValue × AnyValue))
  | noMessage (typeName : String)
/-- A `desc.MessageDescriptor`: fully qualified name, syntax, and fields. -/
inductive MessageDescriptor where
  | mk (Name : String) (IsProto3 : Bool) (Fields : List FieldDescriptor)
/-- A `desc.FieldDescriptor`: `GetNumber()`, `GetType()`, `IsRepeated()`, `IsMap()`,
`GetOneOf()` (the index of the oneof the field is a choice of, if any), the fully
qualified name of `GetMessageType()` and, for a singular scalar field,
`GetDefaultValue()`. -/
inductive FieldDescriptor where
  | mk (Number : Int) (FdType : FieldType) (IsRepeated : Bool) (IsMap : Bool)
      (OneOf : Option Nat) (MessageType : String) (DefaultValue : DynValue)
end

def FieldDescriptor.Number : FieldDescriptor → Int
  | FieldDescriptor.mk n _ _ _ _ _ _ => n

def FieldDescriptor.FdType : FieldDescriptor → FieldType
  | FieldDescriptor.mk _ t _ _ _ _ _ => t

def FieldDescriptor.IsRepeated : FieldDescriptor → Bool
  | FieldDescriptor.mk _ _ r _ _ _ _ => r

def FieldDescriptor.IsMap : FieldDescriptor → Bool
  | FieldDescriptor.mk _ _ _ m _ _ _ => m

def FieldDescriptor.OneOf : FieldDescriptor → Option Nat
  | FieldDescriptor.mk _ _ _ _ o _ _ => o

def FieldDescriptor.MessageType : FieldDescriptor → String
  | FieldDescriptor.mk _ _ _ _ _ t _ => t

def FieldDescriptor.DefaultValue : FieldDescriptor → DynValue
  | FieldDescriptor.mk _ _ _ _ _ _ d => d

def MessageDescriptor.Name : MessageDescriptor → String
  | MessageDescriptor.mk name _ _ => name

def MessageDescriptor.IsProto3 : MessageDescriptor → Bool
  | MessageDescriptor.mk _ p _ => p

def MessageDescriptor.Fields : MessageDescriptor → List FieldDescriptor
  | MessageDescriptor.mk _ _ fields => fields

def DynMessage.md : DynMessage → MessageDescriptor
  | DynMessage.mk md _ => md

def DynMessage.values : DynMessage → List (Int × AnyValue)
  | DynMessage.mk _ values => values

/-- The lookup `md.FindFieldByNumber(n)`. -/
def MessageDescriptor.FindFieldByNumber (md : MessageDescriptor) (n : Int) :
    Option FieldDescriptor :=
  md.Fields.find? (fun fd => decide (fd.Number = n))

/-- A Go map with comparable keys, as the list of its entries (one per key). -/
abbrev GoMap (κ ν : Type) := List (κ × ν)

/-- The map assignment `m[k] = v`. -/
def GoMap.set {κ ν : Type} [DecidableEq κ] : GoMap κ ν → κ → ν → GoMap κ ν
  | [], k, v => [(k, v)]
  | (k1, v1) :: rest, k, v =>
    if k1 = k then (k, v) :: rest else (k1, v1) :: GoMap.set rest k v

/-- The map read `v, ok := m[k]`. -/
def GoMap.get {κ ν : Type} [DecidableEq κ] : GoMap κ ν → κ → Option ν
  | [], _ => none
  | (k1, v1) :: rest, k => if k1 = k then some v1 else GoMap.get rest k

/-- The map removal `delete(m, k)`. -/
def GoMap.delete {κ ν : Type} [DecidableEq κ] : GoMap κ ν → κ → GoMap κ ν
  | [], _ => []
  | (k1, v1) :: rest, k =>
    if k1 = k then GoMap.delete rest k else (k1, v1) :: GoMap.delete rest k

/-- IEEE equality of two `float64` given by their bit patterns. -/
def float64Eq (a b : Nat) : Bool :=
  (decide (a % 2 ^ 63 = 0) && decide (b % 2 ^ 63 = 0)) ||
    (decide (a = b) && !(decide ((a / 2 ^ 52) % 2 ^ 11 = 2 ^ 11 - 1) && decide (a % 2 ^ 52 ≠ 0)))

/-- IEEE equality of two `float32` given by their bit patterns. -/
def float32Eq (a b : Nat) : Bool :=
  (decide (a % 2 ^ 31 = 0) && decide (b % 2 ^ 31 = 0)) ||
    (decide (a = b) && !(decide ((a / 2 ^ 23) % 2 ^ 8 = 2 ^ 8 - 1) && decide (a % 2 ^ 23 ≠ 0)))

/-- Go's `==` on two `interface{}` values holding scalars of comparable type: equal
dynamic types and equal values. -/
def goEq : DynValue → DynValue → Bool
  | DynValue.float64 a, DynValue.float64 b => float64Eq a b
  | DynValue.float32 a, DynValue.float32 b => float32Eq a b
  | DynValue.int32 a, DynValue.int32 b => decide (a = b)
  | DynValue.int64 a, DynValue.int64 b => decide (a = b)
  | DynValue.uint32 a, DynValue.uint32 b => decide (a = b)
  | DynValue.uint64 a, DynValue.uint64 b => decide (a = b)
  | DynValue.bool a, DynValue.bool b => decide (a = b)
  | DynValue.string a, DynValue.string b => decide (a = b)
  | _, _ => false

/-- The check `validElementFieldValue(fd, val)` of one element against the field's
type, with the conversions the library applies (`toInt32`, `toInt64`, ...); `none`
is the library's type error. A message must carry the field's message type, or a
descriptor without a name. -/
def validElementFieldValue (fc : FloatConv) (fd : FieldDescriptor) (val : DynValue) :
    Option DynValue :=
  match fd.FdType with
  | FieldType.TYPE_SFIXED32 | FieldType.TYPE_INT32 | FieldType.TYPE_SINT32
  | FieldType.TYPE_ENUM =>
    match val with
    | DynValue.int32 v => some (DynValue.int32 v)
    | _ => none
  | FieldType.TYPE_SFIXED64 | FieldType.TYPE_INT64 | FieldType.TYPE_SINT64 =>
    match val with
    | DynValue.int64 v => some (DynValue.int64 v)
    | DynValue.int32 v => some (DynValue.int64 v)
    | _ => none
  | FieldType.TYPE_FIXED32 | FieldType.TYPE_UINT32 =>
    match val with
    | DynValue.uint32 v => some (DynValue.uint32 v)
    | _ => none
  | FieldType.TYPE_FIXED64 | FieldType.TYPE_UINT64 =>
    match val with
    | DynValue.uint64 v => some (DynValue.uint64 v)
    | DynValue.uint32 v => some (DynValue.uint64 v)
    | _ => none
  | FieldType.TYPE_FLOAT =>
    match val with
    | DynValue.float32 b => some (DynValue.float32 b)
    | _ => none
  | FieldType.TYPE_DOUBLE =>
    match val with
    | DynValue.float64 b => some (DynValue.float64 b)
    | DynValue.float32 b => some (DynValue.float64 (fc.widen b))
    | _ => none
  | FieldType.TYPE_BOOL =>
    match val with
    | DynValue.bool b => some (DynValue.bool b)
    | _ => none
  | FieldType.TYPE_BYTES =>
    match val with
    | DynValue.bytes b => some (DynValue.bytes b)
    | _ => none
  | FieldType.TYPE_STRING =>
    match val with
    | DynValue.string s => some (DynValue.string s)
    | _ => none
  | FieldType.TYPE_MESSAGE | FieldType.TYPE_GROUP =>
    match val with
    | DynValue.message m =>
      if m.md.Name = "" ∨ m.md.Name = fd.MessageType then some (DynValue.message m) else none
    | _ => none

/-- The element-wise check of a slice for a repeated field. -/
def validElements (fc : FloatConv) (fd : FieldDescriptor) : List DynValue → Option (List DynValue)
  | [] => some []
  | e :: rest =>
    match validElementFieldValue fc fd e with
    | none => none
    | some e1 =>
      match validElements fc fd rest with
      | none => none
      | some rest1 => some (e1 :: rest1)

/-- The value `fd.GetDefaultValue()` stands for when the field is read unset. -/
def FieldDescriptor.defaultRead (fd : FieldDescriptor) : AnyValue :=
  if fd.IsMap then AnyValue.mapValue []
  else if fd.IsRepeated then AnyValue.value (DynValue.slice [])
  else match fd.FdType with
    | FieldType.TYPE_MESSAGE | FieldType.TYPE_GROUP => AnyValue.noMessage fd.MessageType
    | _ => AnyValue.value fd.DefaultValue

/-- The call `dm.GetFieldByNumber(tag)`: the stored value, or the field's default
when none is stored. `none` is the panic on a tag the descriptor does not have. -/
def DynMessage.GetFieldByNumber (dm : DynMessage) (tag : Int) : Option AnyValue :=
  match dm.md.FindFieldByNumber (toInt32 tag) with
  | none => none
  | some fd =>
    match GoMap.get dm.values fd.Number with
    | some v => some v
    | none => some fd.defaultRead

/-- A map key Go can hash: anything but a byte slice, a slice or a map. -/
def AnyValue.hashable : AnyValue → Bool
  | AnyValue.value (DynValue.bytes _) => false
  | AnyValue.value (DynValue.slice _) => false
  | AnyValue.mapValue _ => false
  | _ => true

/-- Key equality in a `map[interface{}]interface{}`. -/
def AnyValue.keyEq : AnyValue → AnyValue → Bool
  | AnyValue.value a, AnyValue.value b => goEq a b
  | _, _ => false

/-- The assignment `m[k] = v` on a `map[interface{}]interface{}`. -/
def mapAssign : List (AnyValue × AnyValue) → AnyValue → AnyValue → List (AnyValue × AnyValue)
  | [], k, v => [(k, v)]
  | (k1, v1) :: rest, k, v =>
    if k1.keyEq k then (k1, v) :: rest else (k1, v1) :: mapAssign rest k v

/-- The conversion of a slice of entry messages given for a map field into a map:
each entry is checked, its fields 1 and 2 are read, and `m[k] = v` is assigned. -/
def entriesToMap (fc : FloatConv) (fd : FieldDescriptor) :
    List DynValue → List (AnyValue × AnyValue) → Option (List (AnyValue × AnyValue))
  | [], m => some m
  | e :: rest, m =>
    match validElementFieldValue fc fd e with
    | some (DynValue.message entry) =>
      match entry.GetFieldByNumber 1, entry.GetFieldByNumber 2 with
      | some k, some v =>
        if k.hashable then entriesToMap fc fd rest (mapAssign m k v) else none
      | _, _ => none
    | _ => none

/-- The check `validFieldValue(fd, val)` of a value handed to a setter: a repeated
field needs a slice, which is checked element by element (and turned into a map for
a map field); a singular field needs one valid element. -/
def validFieldValue (fc : FloatConv) (fd : FieldDescriptor) (val : DynValue) : Option AnyValue :=
  if fd.IsRepeated then
    match val with
    | DynValue.slice items =>
      if fd.IsMap then
        match entriesToMap fc fd items [] with
        | none => none
        | some m => some (AnyValue.mapValue m)
      else
        match validElements fc fd items with
        | none => none
        | some s => some (AnyValue.value (DynValue.slice s))
    | _ => none
  else
    match validElementFieldValue fc fd val with
    | none => none
    | some v => some (AnyValue.value v)

/-- The length of a slice or map value. -/
def AnyValue.len : AnyValue → Nat
  | AnyValue.value (DynValue.slice items) => items.length
  | AnyValue.mapValue entries => entries.length
  | _ => 0

/-- The test of `internalSetField` whether a singular value equals the default of
the field: `bytes.Equal` for a byte slice, `==` otherwise. -/
def FieldDescriptor.isDefault (fd : FieldDescriptor) : AnyValue → Bool
  | AnyValue.value (DynValue.bytes b) =>
    match fd.DefaultValue with
    | DynValue.bytes d => decide (d = b)
    | _ => false
  | AnyValue.value v => goEq fd.DefaultValue v
  | _ => false

/-- The loop of `internalSetField` over the choices of the field's oneof: every
other choice is removed from the table. -/
def clearOneOf (o : Nat) (n : Int) : List FieldDescriptor → List (Int × AnyValue) →
    List (Int × AnyValue)
  | [], values => values
  | other :: rest, values =>
    if other.OneOf = some o ∧ other.Number ≠ n then
      clearOneOf o n rest (GoMap.delete values other.Number)
    else clearOneOf o n rest values

/-- The function `internalSetField` of `dynamic.Message`: an empty repeated value, and
under proto3 a default value of a field outside any oneof, is removed from the
table; any other value is stored and the other choices of the field's oneof are
cleared. -/
def internalSetField (md : MessageDescriptor) (values : List (Int × AnyValue))
    (fd : FieldDescriptor) (val : AnyValue) : List (Int × AnyValue) :=
  if fd.IsRepeated = true ∧ val.len = 0 then GoMap.delete values fd.Number
  else if fd.IsRepeated = false ∧ md.IsProto3 = true ∧ fd.OneOf = none ∧ fd.isDefault val = true then
    GoMap.delete values fd.Number
  else
    match fd.OneOf with
    | none => GoMap.set values fd.Number val
    | some o => clearOneOf o fd.Number md.Fields (GoMap.set values fd.Number val)

/-- The call `dynamic.NewMessage(md)`. -/
def DynMessage.NewMessage (md : MessageDescriptor) : DynMessage := DynMessage.mk md []

/-- The call `dm.SetFieldByNumber(tag, val)`: the field is looked up by
`int32(tag)`, the value is checked against it and stored by `internalSetField`.
`none` is the panic the library raises on an unknown tag or a type error. -/
def DynMessage.SetFieldByNumber (fc : FloatConv) (dm : DynMessage) (tag : Int)
    (val : DynValue) : Option DynMessage :=
  match dm.md.FindFieldByNumber (toInt32 tag) with
  | none => none
  | some fd =>
    match validFieldValue fc fd val with
    | none => none
    | some v => some (DynMessage.mk dm.md (internalSetField dm.md dm.values fd v))

/-- The function `parseStringValue` of `workspace_controller.go`. Every `strconv`
error is discarded (`v, _ := ...`). -/
def parseStringValue (fc : FloatConv) (fdType : FieldType) (val : String) : DynValue :=
  match fdType with
  | FieldType.TYPE_DOUBLE => DynValue.float64 (fc.parseFloat val 64)
  | FieldType.TYPE_FLOAT => DynValue.float32 (fc.narrow (fc.parseFloat val 32))
  | FieldType.TYPE_INT32 | FieldType.TYPE_SINT32 | FieldType.TYPE_SFIXED32
  | FieldType.TYPE_ENUM => DynValue.int32 (toInt32 (ParseInt val 32).1)
  | FieldType.TYPE_INT64 | FieldType.TYPE_SINT64
  | FieldType.TYPE_SFIXED64 => DynValue.int64 (ParseInt val 64).1
  | FieldType.TYPE_UINT32
  | FieldType.TYPE_FIXED32 => DynValue.uint32 (toUint32 (ParseUint val 32).1)
  | FieldType.TYPE_UINT64
  | FieldType.TYPE_FIXED64 => DynValue.uint64 (ParseUint val 64).1
  | FieldType.TYPE_BOOL => DynValue.bool (ParseBool val).1
  | FieldType.TYPE_BYTES => DynValue.bytes (bytesOf val)
  | _ => DynValue.string val

mutual
/-- Modelled from the spec: the type `model.Message` of package `internal/model`,
which is not among the sources, with what `processMessage` reads of it: `Ref` and
`Fields()`. -/
inductive Message where
  | mk (Ref : MessageDescriptor) (Fields : List Field)
/-- Modelled from the spec: the type `model.Field` of package `internal/model`, with
what `processMessage` reads of it: `FdType`, `IsRepeated`, `Tag()`, `Value()`,
`Message()` (a pointer, possibly nil) and `ValueListModel().Values()`. -/
inductive Field where
  | mk (FdType : FieldType) (IsRepeated : Bool) (Tag : Int) (Value : String)
      (Message : Option Message) (Values : List FieldValue)
/-- Modelled from the spec: an item of a repeated field in package `internal/model`:
`Value()` and `MsgValue()` (a pointer, possibly nil). -/
inductive FieldValue where
  | mk (Value : String) (MsgValue : Option Message)
end

def Message.Ref : Message → MessageDescriptor
  | Message.mk ref _ => ref

def Message.Fields : Message → List Field
  | Message.mk _ fields => fields

def Field.FdType : Field → FieldType
  | Field.mk t _ _ _ _ _ => t

def Field.IsRepeated : Field → Bool
  | Field.mk _ r _ _ _ _ => r

def Field.Tag : Field → Int
  | Field.mk _ _ tag _ _ _ => tag

def Field.Value : Field → String
  | Field.mk _ _ _ v _ _ => v

def Field.Message : Field → Option Message
  | Field.mk _ _ _ _ m _ => m

def Field.Values : Field → List FieldValue
  | Field.mk _ _ _ _ _ vs => vs

def FieldValue.Value : FieldValue → String
  | FieldValue.mk v _ => v

def FieldValue.MsgValue : FieldValue → Option Message
  | FieldValue.mk _ m => m

mutual
/-- The function `processMessage` of `workspace_controller.go`. `none` is a run-time
panic: the dereference of a nil `*model.Message` (`msg.Ref`), or the panic of
`SetFieldByNumber`. -/
def processMessage (fc : FloatConv) : Message → Option DynMessage
  | Message.mk ref fields => processFields fc fields (DynMessage.NewMessage ref)
/-- The loop `for _, f := range msg.Fields()` of `processMessage`, on the message
`dm` under construction. -/
def processFields (fc : FloatConv) : List Field → DynMessage → Option DynMessage
  | [], dm => some dm
  | f :: rest, dm =>
    match fieldValue fc f with
    | none => none
    | some v =>
      match dm.SetFieldByNumber fc f.Tag v with
      | none => none
      | some dm1 => processFields fc rest dm1
/-- The `switch f.FdType` of `processMessage`: the value passed to
`dm.SetFieldByNumber(f.Tag(), ...)` in each of its four branches. -/
def fieldValue (fc : FloatConv) : Field → Option DynValue
  | Field.mk fdType isRepeated _ value message values =>
    match fdType with
    | FieldType.TYPE_MESSAGE =>
      if isRepeated then
        match processMsgValues fc values [] with
        | none => none
        | some fields => some (DynValue.slice fields)
      else
        match processPointer fc message with
        | none => none
        | some dm => some (DynValue.message dm)
    | _ =>
      if isRepeated then
        some (DynValue.slice (values.map (fun v => parseStringValue fc fdType v.Value)))
      else some (parseStringValue fc fdType value)
/-- The call `processMessage(p)` on a pointer `p` that may be nil. -/
def processPointer (fc : FloatConv) : Option Message → Option DynMessage
  | none => none
  | some m => processMessage fc m
/-- The loop `for _, v := range f.ValueListModel().Values()` of the repeated message
branch: `fields = append(fields, processMessage(v.MsgValue()))`. -/
def processMsgValues (fc : FloatConv) : List FieldValue → List DynValue → Option (List DynValue)
  | [], fields => some fields
  | FieldValue.mk _ mv :: rest, fields =>
    match processPointer fc mv with
    | none => none
    | some dm => processMsgValues fc rest (fields ++ [DynValue.message dm])
end

/-- The error of the `strconv` call that `parseStringValue` makes for a field kind
(and discards); `none` for the kinds converted without a fallible call, and for the
two floating point kinds, which are outside the embedding. -/
def parseError (fdType : FieldType) (val : String) : Option NumError :=
  match fdType with
  | FieldType.TYPE_INT32 | FieldType.TYPE_SINT32 | FieldType.TYPE_SFIXED32
  | FieldType.TYPE_ENUM => (ParseInt val 32).2
  | FieldType.TYPE_INT64 | FieldType.TYPE_SINT64
  | FieldType.TYPE_SFIXED64 => (ParseInt val 64).2
  | FieldType.TYPE_UINT32
  | FieldType.TYPE_FIXED32 => (ParseUint val 32).2
  | FieldType.TYPE_UINT64
  | FieldType.TYPE_FIXED64 => (ParseUint val 64).2
  | FieldType.TYPE_BOOL => (ParseBool val).2
  | _ => none

/-- The integer-like field kinds. -/
def isIntegerKind (fdType : FieldType) : Bool :=
  match fdType with
  | FieldType.TYPE_INT32 | FieldType.TYPE_SINT32 | FieldType.TYPE_SFIXED32
  | FieldType.TYPE_ENUM | FieldType.TYPE_INT64 | FieldType.TYPE_SINT64
  | FieldType.TYPE_SFIXED64 | FieldType.TYPE_UINT32 | FieldType.TYPE_FIXED32
  | FieldType.TYPE_UINT64 | FieldType.TYPE_FIXED64 => true
  | _ => false

/-- The zero value of the Go type that `parseStringValue` returns for a kind. -/
def zeroValue (fdType : FieldType) : DynValue :=
  match fdType with
  | FieldType.TYPE_DOUBLE => DynValue.float64 0
  | FieldType.TYPE_FLOAT => DynValue.float32 0
  | FieldType.TYPE_INT32 | FieldType.TYPE_SINT32 | FieldType.TYPE_SFIXED32
  | FieldType.TYPE_ENUM => DynValue.int32 0
  | FieldType.TYPE_INT64 | FieldType.TYPE_SINT64
  | FieldType.TYPE_SFIXED64 => DynValue.int64 0
  | FieldType.TYPE_UINT32 | FieldType.TYPE_FIXED32 => DynValue.uint32 0
  | FieldType.TYPE_UINT64 | FieldType.TYPE_FIXED64 => DynValue.uint64 0
  | FieldType.TYPE_BOOL => DynValue.bool false
  | FieldType.TYPE_BYTES => DynValue.bytes []
  | _ => DynValue.string ""

/-- The largest value of the integer type of a kind. -/
def maxValue (fdType : FieldType) : DynValue :=
  match fdType with
  | FieldType.TYPE_INT32 | FieldType.TYPE_SINT32 | FieldType.TYPE_SFIXED32
  | FieldType.TYPE_ENUM => DynValue.int32 (2 ^ 31 - 1)
  | FieldType.TYPE_INT64 | FieldType.TYPE_SINT64
  | FieldType.TYPE_SFIXED64 => DynValue.int64 (2 ^ 63 - 1)
  | FieldType.TYPE_UINT32 | FieldType.TYPE_FIXED32 => DynValue.uint32 (2 ^ 32 - 1)
  | FieldType.TYPE_UINT64 | FieldType.TYPE_FIXED64 => DynValue.uint64 (2 ^ 64 - 1)
  | other => zeroValue other

/-- The smallest value of the integer type of a kind. -/
def minValue (fdType : FieldType) : DynValue :=
  match fdType with
  | FieldType.TYPE_INT32 | FieldType.TYPE_SINT32 | FieldType.TYPE_SFIXED32
  | FieldType.TYPE_ENUM => DynValue.int32 (-(2 ^ 31))
  | FieldType.TYPE_INT64 | FieldType.TYPE_SINT64
  | FieldType.TYPE_SFIXED64 => DynValue.int64 (-(2 ^ 63))
  | other => zeroValue other

/-- The text starts with a minus sign. -/
def startsWithMinus (val : String) : Bool := (bytesOf val).head? == some 45

/-- A trivial instance of the floating point parameters, for concrete evaluation. -/
def floatConv0 : FloatConv := ⟨fun _ _ => 0, fun x => x, fun x => x⟩

/-- The text `val` is the canonical text of the value `v` of kind `fdType`: the
decimal text of an integer in the range of the kind's type, `true` or `false` for
bool, any text for string and bytes. The floating point kinds, group and message
have no canonical text here. -/
def Denotes (fdType : FieldType) (val : String) (v : DynValue) : Prop :=
  match fdType with
  | FieldType.TYPE_INT32 | FieldType.TYPE_SINT32 | FieldType.TYPE_SFIXED32
  | FieldType.TYPE_ENUM =>
    ∃ i : Int, -(2 ^ 31) ≤ i ∧ i < 2 ^ 31 ∧ val = toString i ∧ v = DynValue.int32 i
  | FieldType.TYPE_INT64 | FieldType.TYPE_SINT64 | FieldType.TYPE_SFIXED64 =>
    ∃ i : Int, -(2 ^ 63) ≤ i ∧ i < 2 ^ 63 ∧ val = toString i ∧ v = DynValue.int64 i
  | FieldType.TYPE_UINT32 | FieldType.TYPE_FIXED32 =>
    ∃ n : Nat, n < 2 ^ 32 ∧ val = toString n ∧ v = DynValue.uint32 n
  | FieldType.TYPE_UINT64 | FieldType.TYPE_FIXED64 =>
    ∃ n : Nat, n < 2 ^ 64 ∧ val = toString n ∧ v = DynValue.uint64 n
  | FieldType.TYPE_BOOL =>
    (val = "true" ∧ v = DynValue.bool true) ∨ (val = "false" ∧ v = DynValue.bool false)
  | FieldType.TYPE_STRING => v = DynValue.string val
  | FieldType.TYPE_BYTES => v = DynValue.bytes (bytesOf val)
  | _ => False

/-- The field of the message's descriptor that a field of the value tree is set
through: the one `SetFieldByNumber(f.Tag(), ...)` finds. -/
def Field.descriptor (md : MessageDescriptor) (f : Field) : Option FieldDescriptor :=
  md.FindFieldByNumber (toInt32 f.Tag)

/-- No two fields of the list are choices of the same oneof of the descriptor. -/
def NoSharedOneOf (md : MessageDescriptor) (fields : List Field) : Prop :=
  ∀ f ∈ fields, ∀ g ∈ fields, f.Tag ≠ g.Tag →
    ∀ fdf fdg, f.descriptor md = some fdf → g.descriptor md = some fdg →
      ∀ o, fdf.OneOf = some o → fdg.OneOf ≠ some o

mutual
/-- A value tree structurally matches its descriptor: tag numbers are unique in the
descriptor and in the tree, every field of the tree is the descriptor's field of
that tag with the same kind and label, every message-typed field (and every item of
a repeated one) holds a message of the field's message type that matches in turn,
and every scalar text is canonical for its kind. With `plain` set, moreover, no
field is a map field and no two fields are choices of the same oneof. -/
def Message.Matches (plain : Bool) : Message → Prop
  | Message.mk ref fields =>
    (ref.Fields.map FieldDescriptor.Number).Nodup ∧ (fields.map Field.Tag).Nodup ∧
      (plain = true → NoSharedOneOf ref fields) ∧ FieldsMatch plain ref fields
/-- Every field of the list matches. -/
def FieldsMatch (plain : Bool) (ref : MessageDescriptor) : List Field → Prop
  | [] => True
  | f :: rest => FieldMatches plain ref f ∧ FieldsMatch plain ref rest
/-- One field matches the descriptor's field of its tag. -/
def FieldMatches (plain : Bool) (ref : MessageDescriptor) : Field → Prop
  | Field.mk fdType isRepeated tag value message values =>
    ∃ fd, ref.FindFieldByNumber (toInt32 tag) = some fd ∧ fd.Number = tag ∧
      fd.FdType = fdType ∧ fd.IsRepeated = isRepeated ∧ (plain = true → fd.IsMap = false) ∧
      (match fdType with
        | FieldType.TYPE_MESSAGE =>
          if isRepeated then ItemsMatch plain fd.MessageType values
          else PointerMatches plain fd.MessageType message
        | _ =>
          if isRepeated then ∀ fv ∈ values, ∃ v, Denotes fdType fv.Value v
          else ∃ v, Denotes fdType value v)
/-- The pointer is not nil and the message is of the given type and matches. -/
def PointerMatches (plain : Bool) (typeName : String) : Option Message → Prop
  | none => False
  | some m => m.Ref.Name = typeName ∧ m.Matches plain
/-- Every item of a repeated message field holds a matching message. -/
def ItemsMatch (plain : Bool) (typeName : String) : List FieldValue → Prop
  | [] => True
  | FieldValue.mk _ mv :: rest => PointerMatches plain typeName mv ∧ ItemsMatch plain typeName rest
end

/-- What reading a field back must give: `r` is the result of `GetFieldByNumber` at
the field's tag. Singular scalar: the value the text denotes. Singular message: the
message built from the nested value. Repeated: a list with one element per item, in
order, each the value (or built message) of its item. -/
def ReadsBack (fc : FloatConv) (f : Field) (r : Option AnyValue) : Prop :=
  if f.FdType = FieldType.TYPE_MESSAGE then
    if f.IsRepeated then
      ∃ items, r = some (AnyValue.value (DynValue.slice items)) ∧
        List.Forall₂ (fun (fv : FieldValue) (item : DynValue) =>
          ∃ m dm, fv.MsgValue = some m ∧ processMessage fc m = some dm ∧
            item = DynValue.message dm) f.Values items
    else ∃ m dm, f.Message = some m ∧ processMessage fc m = some dm ∧
      r = some (AnyValue.value (DynValue.message dm))
  else
    if f.IsRepeated then
      ∃ items, r = some (AnyValue.value (DynValue.slice items)) ∧
        List.Forall₂ (fun (fv : FieldValue) (item : DynValue) =>
          Denotes f.FdType fv.Value item) f.Values items
    else ∃ v, Denotes f.FdType f.Value v ∧ r = some (AnyValue.value v)

/-- The value `processMessage` hands to `SetFieldByNumber` for a field whose declared
kind is not message: the conversion of the text accessor the declared kind
selects. -/
def scalarFieldValue (fc : FloatConv) (f : Field) : DynValue :=
  if f.IsRepeated then
    DynValue.slice (f.Values.map (fun v => parseStringValue fc f.FdType v.Value))
  else parseStringValue fc f.FdType f.Value

/-- A singular or repeated field descriptor outside any oneof, with the zero value of
its kind as default. -/
def plainField (number : Int) (fdType : FieldType) (isRepeated : Bool) (messageType : String) :
    FieldDescriptor :=
  FieldDescriptor.mk number fdType isRepeated false none messageType (zeroValue fdType)

/-- The descriptor of a nested message with one bool field. -/
def flagsDescriptor : MessageDescriptor :=
  MessageDescriptor.mk "demo.Flags" true [plainField 1 FieldType.TYPE_BOOL false ""]

/-- The descriptor of a message without fields. -/
def emptyDescriptor : MessageDescriptor :=
  MessageDescriptor.mk "demo.Empty" true []

/-- The descriptor of a request with a string, a repeated int32, a message and a
repeated message field. -/
def requestDescriptor : MessageDescriptor :=
  MessageDescriptor.mk "demo.Request" true
    [plainField 1 FieldType.TYPE_STRING false "",
     plainField 2 FieldType.TYPE_INT32 true "",
     plainField 3 FieldType.TYPE_MESSAGE false "demo.Flags",
     plainField 4 FieldType.TYPE_MESSAGE true "demo.Empty"]

/-- A request with a scalar, a repeated scalar, a nested message and a repeated
message field. -/
def sampleRequest : Message :=
  Message.mk requestDescriptor
    [Field.mk FieldType.TYPE_STRING false 1 "wombat" none [],
     Field.mk FieldType.TYPE_INT32 true 2 "" none
       [FieldValue.mk "12" none, FieldValue.mk "-7" none],
     Field.mk FieldType.TYPE_MESSAGE false 3 "" (some (Message.mk flagsDescriptor
       [Field.mk FieldType.TYPE_BOOL false 1 "true" none []])) [],
     Field.mk FieldType.TYPE_MESSAGE true 4 "" none
       [FieldValue.mk "" (some (Message.mk emptyDescriptor []))]]

/-- The descriptor of a message whose two string fields are the choices of one
oneof. -/
def choiceDescriptor : MessageDescriptor :=
  MessageDescriptor.mk "demo.Choice" true
    [FieldDescriptor.mk 1 FieldType.TYPE_STRING false false (some 0) "" (DynValue.string ""),
     FieldDescriptor.mk 2 FieldType.TYPE_STRING false false (some 0) "" (DynValue.string "")]

/-- A value tree for `choiceDescriptor` with a text in each of the two fields. -/
def choiceRequest : Message :=
  Message.mk choiceDescriptor
    [Field.mk FieldType.TYPE_STRING false 1 "x" none [],
     Field.mk FieldType.TYPE_STRING false 2 "y" none []]

/-- The descriptor of the entries of a `map<string, string>`. -/
def entryDescriptor : MessageDescriptor :=
  MessageDescriptor.mk "demo.Labels.LabelsEntry" true
    [plainField 1 FieldType.TYPE_STRING false "", plainField 2 FieldType.TYPE_STRING false ""]

/-- The descriptor of a message with one `map<string, string>` field. -/
def labelsDescriptor : MessageDescriptor :=
  MessageDescriptor.mk "demo.Labels" true
    [FieldDescriptor.mk 1 FieldType.TYPE_MESSAGE true true none "demo.Labels.LabelsEntry"
      (DynValue.slice [])]

/-- A map entry with the given key and value. -/
def labelEntry (k v : String) : FieldValue :=
  FieldValue.mk "" (some (Message.mk entryDescriptor
    [Field.mk FieldType.TYPE_STRING false 1 k none [],
     Field.mk FieldType.TYPE_STRING false 2 v none []]))

/-- A value tree for `labelsDescriptor` with two entries under the same key. -/
def labelsRequest : Message :=
  Message.mk labelsDescriptor
    [Field.mk FieldType.TYPE_MESSAGE true 1 "" none [labelEntry "k" "a", labelEntry "k" "b"]]

/-- The descriptor of a message with one group field. -/
def groupDescriptor : MessageDescriptor :=
  MessageDescriptor.mk "demo.Grouped" false [plainField 1 FieldType.TYPE_GROUP false "demo.Grouped.G"]

/-- The value read for a field from a table: the stored value or the default. -/
def readTable (values : List (Int × AnyValue)) (fd : FieldDescriptor) : AnyValue :=
  match GoMap.get values fd.Number with
  | some v => v
  | none => fd.defaultRead

/-- A value that reads back as itself also when `internalSetField` removes it from
the table instead of storing it. -/
def Stable (fd : FieldDescriptor) (w : AnyValue) : Prop :=
  (fd.IsRepeated = true → w.len = 0 → fd.defaultRead = w) ∧
  (fd.IsRepeated = false → fd.isDefault w = true → fd.defaultRead = w)

/-- What `processMessage` does with one field when nothing panics: `w` is the value
the library keeps for it. -/
def FieldSets (fc : FloatConv) (md : MessageDescriptor) (f : Field) (w : AnyValue) : Prop :=
  ∃ fd v, f.descriptor md = some fd ∧ fd.Number = f.Tag ∧ fieldValue fc f = some v ∧
    validFieldValue fc fd v = some w ∧ Stable fd w

/-- Modelled from the spec: the result of `BlockDial`, which is not among the
sources ("on failure returns the dial error and leaves no active connection"):
a new connection, named by a number, or a dial error and no connection. -/
inductive DialResult where
  | connected (conn : Nat)
  | failed (err : String)

/-- The effects of `connect` and `send` on the outside, in program order. A context
made by `context.WithCancel` is named after the connection it was made for. -/
inductive Event where
  | Close (conn : Nat)
  | Cancel (ctx : Nat)
  | Dial (addr : String) (result : DialResult)
  | Observe (ctx : Nat) (conn : Nat)
  | SetAddr (addr : String)
  | Put (addr : String)
  | Invoke (conn : Nat) (md : Nat) (req : DynMessage) (md_meta : GoMap String String)

/-- How a call ends: it returns a Go `error` (nil is `none`), or it panics. -/
inductive Outcome where
  | returned (err : Option String)
  | panicked

/-- The fields of `workspaceController` that `connect` and `send` read and write:
`grpcConn`, `cancelCtxFunc` (nil is `none`) and the address property of `Options()`. -/
structure workspaceController where
  grpcConn : Option Nat
  cancelCtxFunc : Option Nat
  optionsAddr : String

/-- Lines 128-132 of `connect`: close the existing connection, call its cancel
function (a nil function panics) and clear `grpcConn`. -/
def closeExisting (c : workspaceController) : Option (workspaceController × List Event) :=
  match c.grpcConn with
  | none => some (c, [])
  | some conn =>
    match c.cancelCtxFunc with
    | none => none
    | some ctx => some ({ c with grpcConn := none }, [Event.Close conn, Event.Cancel ctx])

/-- The method `workspaceController.connect`; `dial` is what `BlockDial` returns if
it is called. The result is the new state, the outcome and the effects. -/
def connect (c : workspaceController) (addr : String) (dial : DialResult) :
    workspaceController × Outcome × List Event :=
  if addr = "" then (c, Outcome.returned (some "no address to connect"), [])
  else if c.optionsAddr = addr ∧ c.grpcConn ≠ none then (c, Outcome.returned none, [])
  else
    match closeExisting c with
    | none => (c, Outcome.panicked, (c.grpcConn.map Event.Close).toList)
    | some (c1, closed) =>
      match dial with
      | DialResult.failed err =>
        ({ c1 with grpcConn := none }, Outcome.returned (some err),
          closed ++ [Event.Dial addr dial])
      | DialResult.connected conn =>
        ({ grpcConn := some conn, cancelCtxFunc := some conn, optionsAddr := addr },
          Outcome.returned none,
          closed ++ [Event.Dial addr dial, Event.Observe conn conn, Event.SetAddr addr,
            Event.Put addr])

/-- The loop of `send` that fills `meta` (lines 186-192). -/
def buildMeta : List (String × String) → GoMap String String → GoMap String String
  | [], md => md
  | kv :: rest, md =>
    if kv.1 = "" then buildMeta rest md
    else buildMeta rest (GoMap.set md kv.1 kv.2)

/-- Modelled from the spec: what `send` reads from the input controller, which is
not among the sources: `pbSource.GetMethodDesc`, `RequestModel()` and the key/value
entries of `MetadataListModel().List()`. -/
structure inputController where
  GetMethodDesc : String → String → Nat
  RequestModel : Option Message
  MetadataList : List (String × String)

/-- The method `workspaceController.send`. `invokeMethod` is the method of the output
controller, which is not among the sources; it returns the call's error. -/
def send (fc : FloatConv) (invokeMethod : Nat → Nat → DynMessage → GoMap String String →
    Option String) (c : workspaceController) (input : inputController)
    (service method : String) : Outcome × List Event :=
  match c.grpcConn with
  | none => (Outcome.returned none, [])
  | some conn =>
    let md := input.GetMethodDesc service method
    match processPointer fc input.RequestModel with
    | none => (Outcome.panicked, [])
    | some req =>
      let md_meta := buildMeta input.MetadataList []
      (Outcome.returned (invokeMethod conn md req md_meta), [Event.Invoke conn md req md_meta])

/-- The connections opened and not yet closed, after one more effect. -/
def openAfter (opened : List Nat) : Event → List Nat
  | Event.Close conn => opened.erase conn
  | Event.Dial _ (DialResult.connected conn) => conn :: opened
  | _ => opened

/-- The controller together with the connections opened and not yet closed. -/
structure World where
  ctrl : workspaceController
  opened : List Nat
  panicked : Bool

/-- One `connect` call in a world. -/
def World.connect (w : World) (addr : String) (dial : DialResult) : World :=
  let r := Wombat.connect w.ctrl addr dial
  { ctrl := r.1
    opened := r.2.2.foldl openAfter w.opened
    panicked := w.panicked || (match r.2.1 with
      | Outcome.panicked => true
      | Outcome.returned _ => false) }

/-- A sequence of `connect` calls, each with its address and dial result. -/
def World.run (w : World) : List (String × DialResult) → World
  | [] => w
  | call :: rest => World.run (w.connect call.1 call.2) rest

/-- The state after `init` and before the first `connect`. -/
def World.initial (addr : String) : World :=
  { ctrl := { grpcConn := none, cancelCtxFunc := none, optionsAddr := addr }
    opened := []
    panicked := false }

/-- The value of the last entry with key `k` in a list of key/value entries. -/
def lastValue (k : String) : List (String × String) → Option String
  | [] => none
  | kv :: rest =>
    match lastValue k rest with
    | some v => some v
    | none => if kv.1 = k then some kv.2 else none

/-- The invariant of the connection manager: the connections opened and not yet
closed are exactly the one held in `grpcConn` (none if it is nil), the stored cancel
function belongs to that connection's observer, and no call has panicked. -/
def World.Inv (w : World) : Prop :=
  w.opened = w.ctrl.grpcConn.toList ∧
  (∀ conn, w.ctrl.grpcConn = some conn → w.ctrl.cancelCtxFunc = some conn) ∧
  w.panicked = false

/-! ### The walk: helper lemmas -/

theorem countP_lt_countP_of_mem {α : Type} (p q : α → Bool) (a : α) :
    ∀ l : List α, a ∈ l → (∀ x, p x = true → q x = true) → q a = true → p a = false →
      l.countP p < l.countP q := by
  intro l
  induction l with
  | nil => intro h; simp at h
  | cons b t ih =>
    intro hmem hpq hqa hpa
    have hle : t.countP p ≤ t.countP q := List.countP_mono_left (fun x _ hx => hpq x hx)
    by_cases hb : b = a
    · subst hb
      simp only [List.countP_cons, hqa, hpa]
      simp
      omega
    · have hat : a ∈ t := by
        rcases List.mem_cons.mp hmem with h | h
        · exact absurd h.symm hb
        · exact h
      have := ih hat hpq hqa hpa
      simp only [List.countP_cons]
      by_cases hpb : p b = true
      · simp [hpb, hpq b hpb]; omega
      · by_cases hqb : q b = true
        · simp [hpb, hqb]; omega
        · simp [hpb, hqb]; omega

theorem unseen_mono {n : Nat} (g : FileGraph n) {seen seen1 : List String}
    (h : ∀ s, s ∈ seen → s ∈ seen1) : unseen g seen1 ≤ unseen g seen := by
  unfold unseen
  apply List.countP_mono_left
  intro x _ hx
  simp only [decide_eq_true_eq] at hx ⊢
  exact fun hmem => hx (h _ hmem)

theorem unseen_cons_lt {n : Nat} (g : FileGraph n) {seen : List String} {fd : Fin n}
    (h : g.name fd ∉ seen) : unseen g (g.name fd :: seen) < unseen g seen := by
  unfold unseen
  apply countP_lt_countP_of_mem _ _ fd _ (List.mem_finRange fd)
  · intro x hx
    simp only [decide_eq_true_eq, List.mem_cons, not_or] at hx ⊢
    exact hx.2
  · simpa using h
  · simp

theorem unseen_le {n : Nat} (g : FileGraph n) (seen : List String) : unseen g seen ≤ n := by
  unfold unseen
  calc (List.finRange n).countP _ ≤ (List.finRange n).length := List.countP_le_length _
    _ = n := List.length_finRange n

theorem WalkOk.done {n : Nat} (g : FileGraph n) (seen : List String) :
    WalkOk g [] seen seen [] where
  seen_iff := by simp
  nodup := by simp
  fresh := by simp
  starts_seen := by simp
  deps_seen := by simp
  reach := by simp

theorem WalkOk.skip {n : Nat} (g : FileGraph n) {seen : List String} {fd : Fin n}
    (h : g.name fd ∈ seen) : WalkOk g [fd] seen seen [] where
  seen_iff := by simp
  nodup := by simp
  fresh := by simp
  starts_seen := by simpa using h
  deps_seen := by simp
  reach := by simp

theorem WalkOk.append {n : Nat} {g : FileGraph n} {r : Fin n} {rs : List (Fin n)}
    {seen s1 s2 : List String} {o1 o2 : List (Fin n)}
    (h1 : WalkOk g [r] seen s1 o1) (h2 : WalkOk g rs s1 s2 o2) :
    WalkOk g (r :: rs) seen s2 (o1 ++ o2) where
  seen_iff := by
    intro s
    rw [h2.seen_iff, h1.seen_iff, List.map_append, List.mem_append, or_assoc]
  nodup := by
    rw [List.map_append, List.nodup_append]
    refine ⟨h1.nodup, h2.nodup, ?_⟩
    intro s hs1 hs2
    obtain ⟨x, hx, rfl⟩ := List.mem_map.mp hs2
    exact h2.fresh x hx ((h1.seen_iff _).mpr (Or.inr hs1))
  fresh := by
    intro x hx hseen
    rcases List.mem_append.mp hx with h | h
    · exact h1.fresh x h hseen
    · exact h2.fresh x h ((h1.seen_iff _).mpr (Or.inl hseen))
  starts_seen := by
    intro x hx
    rcases List.mem_cons.mp hx with h | h
    · subst h
      exact (h2.seen_iff _).mpr (Or.inl (h1.starts_seen x (List.mem_singleton_self x)))
    · exact h2.starts_seen x h
  deps_seen := by
    intro x hx d hd
    rcases List.mem_append.mp hx with h | h
    · exact (h2.seen_iff _).mpr (Or.inl (h1.deps_seen x h d hd))
    · exact h2.deps_seen x h d hd
  reach := by
    intro x hx
    rcases List.mem_append.mp hx with h | h
    · obtain ⟨r1, hr1, hreach⟩ := h1.reach x h
      exact ⟨r1, by simp at hr1; simp [hr1], hreach⟩
    · obtain ⟨r1, hr1, hreach⟩ := h2.reach x h
      exact ⟨r1, List.mem_cons_of_mem _ hr1, hreach⟩

theorem WalkOk.visit {n : Nat} {g : FileGraph n} {fd : Fin n}
    {seen s1 : List String} {out : List (Fin n)} (hfd : g.name fd ∉ seen)
    (h : WalkOk g (g.deps fd) (g.name fd :: seen) s1 out) :
    WalkOk g [fd] seen s1 (fd :: out) where
  seen_iff := by
    intro s
    rw [h.seen_iff, List.map_cons, List.mem_cons, List.mem_cons]
    tauto
  nodup := by
    rw [List.map_cons, List.nodup_cons]
    refine ⟨?_, h.nodup⟩
    intro hmem
    obtain ⟨x, hx, hxe⟩ := List.mem_map.mp hmem
    exact h.fresh x hx (by rw [hxe]; exact List.mem_cons_self _ _)
  fresh := by
    intro x hx
    rcases List.mem_cons.mp hx with hx | hx
    · subst hx; exact hfd
    · exact fun hs => h.fresh x hx (List.mem_cons_of_mem _ hs)
  starts_seen := by
    intro r hr
    rw [List.mem_singleton] at hr
    subst hr
    exact (h.seen_iff _).mpr (Or.inl (List.mem_cons_self _ _))
  deps_seen := by
    intro x hx d hd
    rcases List.mem_cons.mp hx with hx | hx
    · subst hx; exact h.starts_seen d hd
    · exact h.deps_seen x hx d hd
  reach := by
    intro x hx
    refine ⟨fd, List.mem_singleton_self fd, ?_⟩
    rcases List.mem_cons.mp hx with hx | hx
    · subst hx; exact Relation.ReflTransGen.refl
    · obtain ⟨d, hd, hreach⟩ := h.reach x hx
      exact Relation.ReflTransGen.head hd hreach

theorem WalkOk.unseen_mono_of_walk {n : Nat} {g : FileGraph n} {starts : List (Fin n)}
    {seen s1 : List String} {out : List (Fin n)} (h : WalkOk g starts seen s1 out) :
    unseen g s1 ≤ unseen g seen :=
  unseen_mono g (fun s hs => (h.seen_iff s).mpr (Or.inl hs))

/-- The loop returns when its callee returns on every seen-set with fewer than
`fuel` unseen files, and it composes the callee's guarantees. -/
theorem walkLoop_ok {n : Nat} (g : FileGraph n) (fuel : Nat)
    (walk : List String → Fin n → Option (List String × List (Fin n)))
    (hwalk : ∀ seen fd, unseen g seen < fuel →
      ∃ s1 o, walk seen fd = some (s1, o) ∧ WalkOk g [fd] seen s1 o) :
    ∀ (ds : List (Fin n)) (seen : List String) (fds : List (Fin n)), unseen g seen < fuel →
      ∃ s1 o, walkLoop walk seen fds ds = some (s1, fds ++ o) ∧ WalkOk g ds seen s1 o := by
  intro ds
  induction ds with
  | nil =>
    intro seen fds _
    exact ⟨seen, [], by simp [walkLoop], WalkOk.done g seen⟩
  | cons d rest ih =>
    intro seen fds hlt
    obtain ⟨s1, o1, hw, hok1⟩ := hwalk seen d hlt
    obtain ⟨s2, o2, hl, hok2⟩ := ih s1 (fds ++ o1) (lt_of_le_of_lt hok1.unseen_mono_of_walk hlt)
    refine ⟨s2, o1 ++ o2, ?_, hok1.append hok2⟩
    simp only [walkLoop, hw, hl, List.append_assoc]

/-- A walk whose depth bound exceeds the number of unseen files returns, with
the guarantees of `WalkOk`. -/
theorem walkFileDescriptors_ok {n : Nat} (g : FileGraph n) :
    ∀ (fuel : Nat) (seen : List String) (fd : Fin n), unseen g seen < fuel →
      ∃ s1 o, walkFileDescriptors g fuel seen fd = some (s1, o) ∧ WalkOk g [fd] seen s1 o := by
  intro fuel
  induction fuel with
  | zero => intro seen fd h; omega
  | succ fuel ih =>
    intro seen fd hlt
    by_cases hmem : g.name fd ∈ seen
    · exact ⟨seen, [], by simp [walkFileDescriptors, hmem], WalkOk.skip g hmem⟩
    · have hlt1 : unseen g (g.name fd :: seen) < fuel := by
        have := unseen_cons_lt g hmem
        omega
      obtain ⟨s1, o, hl, hok⟩ := walkLoop_ok g fuel _ ih (g.deps fd) (g.name fd :: seen) [fd] hlt1
      exact ⟨s1, fd :: o, by simpa [walkFileDescriptors, hmem] using hl, hok.visit hmem⟩

theorem fileDescriptorSet_ok {n : Nat} (g : FileGraph n) (roots : List (Fin n)) (k : Nat) :
    ∃ s1 o, fileDescriptorSet g (n + 1 + k) roots = some (s1, o) ∧ WalkOk g roots [] s1 o := by
  have hlt : unseen g [] < n + 1 + k := by
    have := unseen_le g []
    omega
  obtain ⟨s1, o, hl, hok⟩ :=
    walkLoop_ok g (n + 1 + k) _ (walkFileDescriptors_ok g (n + 1 + k)) roots [] [] hlt
  exact ⟨s1, o, by simpa [fileDescriptorSet] using hl, hok⟩

/-- With injective names, membership of a name among the emitted names is
membership of the file. -/
theorem mem_of_name_mem {n : Nat} (g : FileGraph n) (hinj : Function.Injective g.name)
    {x : Fin n} {out : List (Fin n)} (h : g.name x ∈ out.map g.name) : x ∈ out := by
  obtain ⟨y, hy, hxy⟩ := List.mem_map.mp h
  exact hinj hxy ▸ hy

/-- A name-injective, dependency-closed emitted list contains everything reachable
from any of its members. -/
theorem mem_of_reaches {n : Nat} (g : FileGraph n) {out : List (Fin n)}
    (hclosed : ∀ x ∈ out, ∀ d ∈ g.deps x, d ∈ out) {x y : Fin n}
    (hx : x ∈ out) (h : Reaches g x y) : y ∈ out := by
  induction h with
  | refl => exact hx
  | tail _ hstep ih => exact hclosed _ ih _ hstep

theorem walkLoop_mono {n : Nat}
    (w1 w2 : List String → Fin n → Option (List String × List (Fin n)))
    (h : ∀ seen fd r, w1 seen fd = some r → w2 seen fd = some r) :
    ∀ (ds : List (Fin n)) (seen : List String) (fds : List (Fin n)) r,
      walkLoop w1 seen fds ds = some r → walkLoop w2 seen fds ds = some r := by
  intro ds
  induction ds with
  | nil => intro seen fds r hr; simpa [walkLoop] using hr
  | cons d rest ih =>
    intro seen fds r hr
    simp only [walkLoop] at hr ⊢
    cases hw : w1 seen d with
    | none => simp [hw] at hr
    | some p =>
      obtain ⟨s1, o1⟩ := p
      rw [hw] at hr
      rw [h seen d _ hw]
      exact ih s1 (fds ++ o1) r hr

/-- A larger depth bound does not change a result already obtained. -/
theorem walkFileDescriptors_mono {n : Nat} (g : FileGraph n) :
    ∀ (fuel k : Nat) (seen : List String) (fd : Fin n) r,
      walkFileDescriptors g fuel seen fd = some r →
      walkFileDescriptors g (fuel + k) seen fd = some r := by
  intro fuel
  induction fuel with
  | zero => intro k seen fd r hr; simp [walkFileDescriptors] at hr
  | succ fuel ih =>
    intro k seen fd r hr
    have hk : fuel + 1 + k = (fuel + k) + 1 := by omega
    rw [hk]
    simp only [walkFileDescriptors] at hr ⊢
    by_cases hmem : g.name fd ∈ seen
    · simpa [hmem] using hr
    · simp only [hmem, if_false] at hr ⊢
      exact walkLoop_mono _ _ (fun s f r1 h1 => ih k s f r1 h1) _ _ _ _ hr

/-! ### The walk: claims -/

/-- C1: walking the roots in order with one shared, initially empty seen-set and
concatenating the results returns a list in which no file name occurs twice; when
file names identify files, the emitted files are exactly the files reachable from
the roots, each of them emitted exactly once. -/
theorem fileDescriptorSet_each_file_once {n : Nat} (g : FileGraph n) (roots : List (Fin n))
    (k : Nat) :
    ∃ seen out, fileDescriptorSet g (n + 1 + k) roots = some (seen, out) ∧
      (out.map g.name).Nodup ∧
      (Function.Injective g.name →
        ∀ x, out.count x = 1 ↔ ∃ r ∈ roots, Reaches g r x) := by
  obtain ⟨seen, out, hrun, hok⟩ := fileDescriptorSet_ok g roots k
  refine ⟨seen, out, hrun, hok.nodup, ?_⟩
  intro hinj x
  have hnd : out.Nodup := List.Nodup.of_map _ hok.nodup
  have hnames : ∀ y, g.name y ∈ seen → y ∈ out := by
    intro y hy
    rcases (hok.seen_iff _).mp hy with h | h
    · simp at h
    · exact mem_of_name_mem g hinj h
  have hclosed : ∀ y ∈ out, ∀ d ∈ g.deps y, d ∈ out :=
    fun y hy d hd => hnames d (hok.deps_seen y hy d hd)
  constructor
  · intro hc
    have hx : x ∈ out := List.count_pos_iff.mp (by omega)
    exact hok.reach x hx
  · rintro ⟨r, hr, hreach⟩
    have hx : x ∈ out := mem_of_reaches g hclosed (hnames r (hok.starts_seen r hr)) hreach
    exact List.count_eq_one_of_mem hnd hx

theorem cyclicGraph_name_injective : Function.Injective cyclicGraph.name := by
  intro a b h
  fin_cases a <;> fin_cases b <;> simp_all [cyclicGraph]

theorem fileDescriptorSet_each_file_once_witness :
    ∃ seen out, fileDescriptorSet cyclicGraph 4 [1, 0] = some (seen, out) ∧
      (out.map cyclicGraph.name).Nodup ∧ out.count 2 = 1 := by
  obtain ⟨seen, out, hrun, hnd, hcount⟩ := fileDescriptorSet_each_file_once cyclicGraph [1, 0] 0
  refine ⟨seen, out, hrun, hnd, (hcount cyclicGraph_name_injective 2).mpr ⟨1, by simp, ?_⟩⟩
  exact Relation.ReflTransGen.single (by simp [DependsOn, cyclicGraph])

/-- C2: the file set aggregated from the roots with a shared, initially empty
seen-set contains the name of every root and the name of every direct dependency
of every emitted file; when file names identify files, it contains every root and
every file reachable through dependencies from an emitted file. -/
theorem fileDescriptorSet_dependency_closed {n : Nat} (g : FileGraph n)
    (roots : List (Fin n)) (k : Nat) :
    ∃ seen out, fileDescriptorSet g (n + 1 + k) roots = some (seen, out) ∧
      (∀ r ∈ roots, g.name r ∈ out.map g.name) ∧
      (∀ x ∈ out, ∀ d ∈ g.deps x, g.name d ∈ out.map g.name) ∧
      (Function.Injective g.name →
        (∀ r ∈ roots, r ∈ out) ∧ ∀ x ∈ out, ∀ y, Reaches g x y → y ∈ out) := by
  obtain ⟨seen, out, hrun, hok⟩ := fileDescriptorSet_ok g roots k
  have hseen : ∀ s, s ∈ seen → s ∈ out.map g.name := by
    intro s hs
    rcases (hok.seen_iff _).mp hs with h | h
    · simp at h
    · exact h
  refine ⟨seen, out, hrun, fun r hr => hseen _ (hok.starts_seen r hr),
    fun x hx d hd => hseen _ (hok.deps_seen x hx d hd), ?_⟩
  intro hinj
  have hclosed : ∀ y ∈ out, ∀ d ∈ g.deps y, d ∈ out :=
    fun y hy d hd => mem_of_name_mem g hinj (hseen _ (hok.deps_seen y hy d hd))
  exact ⟨fun r hr => mem_of_name_mem g hinj (hseen _ (hok.starts_seen r hr)),
    fun x hx y hreach => mem_of_reaches g hclosed hx hreach⟩

theorem fileDescriptorSet_dependency_closed_witness :
    ∃ seen out, fileDescriptorSet cyclicGraph 4 [1] = some (seen, out) ∧
      (1 : Fin 3) ∈ out ∧ (0 : Fin 3) ∈ out := by
  obtain ⟨seen, out, hrun, _, _, hinj⟩ := fileDescriptorSet_dependency_closed cyclicGraph [1] 0
  obtain ⟨hroots, hreach⟩ := hinj cyclicGraph_name_injective
  refine ⟨seen, out, hrun, hroots 1 (by simp), hreach 1 (hroots 1 (by simp)) 0 ?_⟩
  exact Relation.ReflTransGen.single (by simp [DependsOn, cyclicGraph])

/-- C10: from every seen-set and starting file, a walk whose depth bound exceeds the
number of unseen files returns; the result does not depend on the bound; the
seen-set only grows and ends up holding the file's name; a call on a file already
seen returns at once with nothing emitted and the seen-set unchanged, and any other
call strictly decreases the number of unseen files. -/
theorem walkFileDescriptors_terminates {n : Nat} (g : FileGraph n) (seen : List String)
    (fd : Fin n) (k : Nat) :
    ∃ seen1 out, walkFileDescriptors g (unseen g seen + 1 + k) seen fd = some (seen1, out) ∧
      walkFileDescriptors g (unseen g seen + 1) seen fd = some (seen1, out) ∧
      (∀ s ∈ seen, s ∈ seen1) ∧ g.name fd ∈ seen1 ∧
      (if g.name fd ∈ seen then seen1 = seen ∧ out = []
       else unseen g seen1 < unseen g seen) := by
  obtain ⟨s1, o, hrun, hok⟩ := walkFileDescriptors_ok g (unseen g seen + 1) seen fd (by omega)
  refine ⟨s1, o, walkFileDescriptors_mono g _ k seen fd _ hrun, hrun,
    fun s hs => (hok.seen_iff s).mpr (Or.inl hs),
    hok.starts_seen fd (List.mem_singleton_self fd), ?_⟩
  by_cases hmem : g.name fd ∈ seen
  · simp only [hmem, if_true]
    have : walkFileDescriptors g (unseen g seen + 1) seen fd = some (seen, []) := by
      simp [walkFileDescriptors, hmem]
    rw [this] at hrun
    simp only [Option.some.injEq, Prod.mk.injEq] at hrun
    exact ⟨hrun.1.symm, hrun.2.symm⟩
  · simp only [hmem, if_false]
    have h1 : unseen g s1 ≤ unseen g (g.name fd :: seen) := by
      apply unseen_mono
      intro s hs
      rcases List.mem_cons.mp hs with h | h
      · rw [h]; exact hok.starts_seen fd (List.mem_singleton_self fd)
      · exact (hok.seen_iff s).mpr (Or.inl h)
    have h2 := unseen_cons_lt g hmem
    omega

/-! ### strconv: helper lemmas -/

theorem parseUintLoop_error (maxVal : Nat) :
    ∀ (bs : List UInt8) (n : Nat),
      ((parseUintLoop maxVal n bs).2 = some NumError.ErrSyntax → (parseUintLoop maxVal n bs).1 = 0) ∧
      ((parseUintLoop maxVal n bs).2 = some NumError.ErrRange →
        (parseUintLoop maxVal n bs).1 = maxVal) := by
  intro bs
  induction bs with
  | nil => intro n; simp [parseUintLoop]
  | cons c cs ih =>
    intro n
    simp only [parseUintLoop]
    cases hd : digitOf c with
    | none => simp
    | some d =>
      simp only []
      split_ifs
      · simp
      · simp
      · simp
      · exact ih _

theorem parseUintBytes_error (bs : List UInt8) (bitSize : Nat) :
    ((parseUintBytes bs bitSize).2 = some NumError.ErrSyntax → (parseUintBytes bs bitSize).1 = 0) ∧
    ((parseUintBytes bs bitSize).2 = some NumError.ErrRange →
      (parseUintBytes bs bitSize).1 = 2 ^ bitSize - 1 ∧ bs.head? ≠ some 45) := by
  unfold parseUintBytes
  split
  · simp
  · refine ⟨(parseUintLoop_error _ bs 0).1, fun h => ⟨(parseUintLoop_error _ bs 0).2 h, ?_⟩⟩
    intro hhead
    cases bs with
    | nil => simp at hhead
    | cons c cs =>
      simp only [List.head?_cons, Option.some.injEq] at hhead
      subst hhead
      have : digitOf 45 = none := by decide
      simp [parseUintLoop, this] at h

theorem ParseInt_error (val : String) (bitSize : Nat) :
    ((ParseInt val bitSize).2 = some NumError.ErrSyntax → (ParseInt val bitSize).1 = 0) ∧
    ((ParseInt val bitSize).2 = some NumError.ErrRange →
      (ParseInt val bitSize).1 =
        if startsWithMinus val then toInt64 (- toInt64 ((2 ^ (bitSize - 1) : Nat) : Int))
        else toInt64 ((2 ^ (bitSize - 1) - 1 : Nat) : Int)) := by
  unfold ParseInt startsWithMinus
  cases hb : bytesOf val with
  | nil => simp
  | cons c rest =>
    simp only [List.head?_cons]
    generalize parseUintBytes (if c = 43 ∨ c = 45 then rest else c :: rest) bitSize = r
    by_cases h1 : r.2 = some NumError.ErrSyntax
    · simp [h1]
    · by_cases hc : c = 45
      · by_cases h2 : r.1 > 2 ^ (bitSize - 1) <;> simp [h1, hc, h2]
      · by_cases h2 : r.1 ≥ 2 ^ (bitSize - 1) <;> simp [h1, hc, h2]

theorem ParseUint_error (val : String) (bitSize : Nat) :
    ((ParseUint val bitSize).2 = some NumError.ErrSyntax → (ParseUint val bitSize).1 = 0) ∧
    ((ParseUint val bitSize).2 = some NumError.ErrRange →
      (ParseUint val bitSize).1 = 2 ^ bitSize - 1 ∧ startsWithMinus val = false) := by
  unfold ParseUint startsWithMinus
  refine ⟨(parseUintBytes_error _ _).1, fun h => ⟨((parseUintBytes_error _ _).2 h).1, ?_⟩⟩
  simpa using ((parseUintBytes_error _ _).2 h).2

theorem ParseBool_error (val : String) :
    (ParseBool val).2 ≠ some NumError.ErrRange ∧
    ((ParseBool val).2 ≠ none → (ParseBool val).1 = false) := by
  unfold ParseBool
  split_ifs <;> simp

theorem bytesOf_eq (s : String) : bytesOf s = s.data.flatMap String.utf8EncodeChar := rfl

theorem bytesOf_append (a b : String) : bytesOf (a ++ b) = bytesOf a ++ bytesOf b := by
  simp [bytesOf_eq, String.data_append, List.flatMap_append]

theorem utf8EncodeChar_digitChar (d : Nat) (hd : d < 10) :
    String.utf8EncodeChar (Nat.digitChar d) = [UInt8.ofNat (48 + d)] := by
  interval_cases d <;> rfl

theorem digitOf_digit (d : Nat) (hd : d < 10) : digitOf (UInt8.ofNat (48 + d)) = some d := by
  interval_cases d <;> rfl

theorem parseUintLoop_digit (maxVal m d : Nat) (rest : List UInt8) (hd : d < 10)
    (hle : m * 10 + d ≤ maxVal) (hmax : maxVal < 2 ^ 64) :
    parseUintLoop maxVal m (String.utf8EncodeChar (Nat.digitChar d) ++ rest)
      = parseUintLoop maxVal (m * 10 + d) rest := by
  rw [utf8EncodeChar_digitChar d hd]
  simp only [List.singleton_append, parseUintLoop, digitOf_digit d hd]
  have h1 : ¬ d ≥ 10 := by omega
  have h2 : ¬ m ≥ cutoff10 := by
    have : cutoff10 = 1844674407370955162 := by decide
    rw [this]
    norm_num at hmax
    omega
  have h3 : (m * 10) % 2 ^ 64 = m * 10 := Nat.mod_eq_of_lt (by omega)
  have h4 : (m * 10 + d) % 2 ^ 64 = m * 10 + d := Nat.mod_eq_of_lt (by omega)
  simp only [h1, h2, h3, h4, if_false]
  have h5 : ¬ (m * 10 + d < m * 10 ∨ m * 10 + d > maxVal) := by omega
  simp only [h5, if_false]
  rfl

theorem parseUintLoop_toDigitsCore (maxVal : Nat) (hmax : maxVal < 2 ^ 64) :
    ∀ (fuel n : Nat) (ds : List Char), n < fuel → n ≤ maxVal →
      parseUintLoop maxVal 0 ((Nat.toDigitsCore 10 fuel n ds).flatMap String.utf8EncodeChar)
        = parseUintLoop maxVal n (ds.flatMap String.utf8EncodeChar) := by
  intro fuel
  induction fuel with
  | zero => intro n ds h; omega
  | succ fuel ih =>
    intro n ds hlt hle
    simp only [Nat.toDigitsCore]
    have hmod : n % 10 < 10 := Nat.mod_lt _ (by norm_num)
    have hdiv : n / 10 * 10 + n % 10 = n := by omega
    by_cases h0 : n / 10 = 0
    · simp only [h0, if_true, List.flatMap_cons]
      rw [parseUintLoop_digit maxVal 0 (n % 10) _ hmod (by omega) hmax]
      congr 1
      omega
    · simp only [h0, if_false]
      rw [ih (n / 10) _ (by omega) (by omega), List.flatMap_cons,
        parseUintLoop_digit maxVal (n / 10) (n % 10) _ hmod (by omega) hmax, hdiv]

theorem parseUintBytes_repr (n bitSize : Nat) (hb : bitSize ≤ 64) (hn : n < 2 ^ bitSize) :
    parseUintBytes (bytesOf (toString n)) bitSize = (n, none) := by
  have hpow : 2 ^ bitSize ≤ 2 ^ 64 := Nat.pow_le_pow_right (by norm_num) hb
  have hpos : 0 < 2 ^ bitSize := Nat.pow_pos (by norm_num)
  have hloop : parseUintLoop (2 ^ bitSize - 1) 0 (bytesOf (toString n)) = (n, none) := by
    have := parseUintLoop_toDigitsCore (2 ^ bitSize - 1) (by omega) (n + 1) n [] (by omega)
      (by omega)
    simpa [parseUintLoop] using this
  unfold parseUintBytes
  split
  · rename_i hnil
    rw [hnil] at hloop
    simp only [parseUintLoop, Prod.mk.injEq, and_true] at hloop
    subst hloop
    exact absurd hnil (by decide)
  · exact hloop

theorem ParseUint_repr (n bitSize : Nat) (hb : bitSize ≤ 64) (hn : n < 2 ^ bitSize) :
    ParseUint (toString n) bitSize = (n, none) :=
  parseUintBytes_repr n bitSize hb hn

theorem toInt64_of_range (x : Int) (h1 : -(2 ^ 63) ≤ x) (h2 : x < 2 ^ 63) : toInt64 x = x := by
  unfold toInt64
  norm_num at h1 h2 ⊢
  omega

theorem toInt64_two_pow_63 : toInt64 ((2 ^ 63 : Nat) : Int) = -(2 ^ 63) := by decide

theorem toInt32_of_range (x : Int) (h1 : -(2 ^ 31) ≤ x) (h2 : x < 2 ^ 31) : toInt32 x = x := by
  unfold toInt32
  norm_num at h1 h2 ⊢
  omega

theorem ParseInt_repr_nat (m bitSize : Nat) (hb1 : 1 ≤ bitSize) (hb : bitSize ≤ 64)
    (hm : m < 2 ^ (bitSize - 1)) : ParseInt (toString m) bitSize = ((m : Int), none) := by
  have hpow : 2 ^ (bitSize - 1) ≤ 2 ^ 63 := Nat.pow_le_pow_right (by norm_num) (by omega)
  have hpow2 : 2 ^ (bitSize - 1) ≤ 2 ^ bitSize := Nat.pow_le_pow_right (by norm_num) (by omega)
  have hp := parseUintBytes_repr m bitSize hb (by omega)
  unfold ParseInt
  cases hbs : bytesOf (toString m) with
  | nil =>
    rw [hbs] at hp
    simp [parseUintBytes] at hp
  | cons c rest =>
    rw [hbs] at hp
    have hc : ¬ (c = 43 ∨ c = 45) := by
      intro hc
      have hd : digitOf c = none := by
        rcases hc with h | h <;> subst h <;> decide
      simp [parseUintBytes, parseUintLoop, hd] at hp
    have hbody : (if c = 43 ∨ c = 45 then rest else c :: rest) = c :: rest := if_neg hc
    have hdec : decide (c = 45) = false := by
      simpa using fun h => hc (Or.inr h)
    have hlt : ¬ (m ≥ 2 ^ (bitSize - 1)) := by omega
    have hval : toInt64 (m : Int) = m := by
      apply toInt64_of_range
      · have : (0 : Int) ≤ m := Int.ofNat_nonneg m
        have h63 : (2 : Int) ^ 63 = 9223372036854775808 := by norm_num
        omega
      · have : (m : Int) < ((2 ^ 63 : Nat) : Int) := by exact_mod_cast (by omega : m < 2 ^ 63)
        simpa using this
    simp only [hbody, hp, hdec, hlt, hval, reduceCtorEq, if_false, and_false, false_and,
      Bool.false_eq_true]

theorem ParseInt_repr_neg (k bitSize : Nat) (hb1 : 1 ≤ bitSize) (hb : bitSize ≤ 64)
    (hk : k + 1 ≤ 2 ^ (bitSize - 1)) :
    ParseInt (toString (Int.negSucc k)) bitSize = (Int.negSucc k, none) := by
  have hpow : 2 ^ (bitSize - 1) ≤ 2 ^ 63 := Nat.pow_le_pow_right (by norm_num) (by omega)
  have hpow2 : 2 ^ bitSize = 2 * 2 ^ (bitSize - 1) := by
    rw [← pow_succ']
    congr 1
    omega
  have hpos : 0 < 2 ^ (bitSize - 1) := Nat.pow_pos (by norm_num)
  have hp := parseUintBytes_repr (k + 1) bitSize hb (by omega)
  have hstr : toString (Int.negSucc k) = "-" ++ toString (k + 1) := rfl
  have hbs : bytesOf (toString (Int.negSucc k)) = 45 :: bytesOf (toString (k + 1)) := by
    rw [hstr, bytesOf_append]
    rfl
  have hgt : ¬ (k + 1 > 2 ^ (bitSize - 1)) := by omega
  have hval : toInt64 (- toInt64 ((k + 1 : Nat) : Int)) = Int.negSucc k := by
    have h63 : (2 : Int) ^ 63 = 9223372036854775808 := by norm_num
    have h64 : (2 : Int) ^ 64 = 18446744073709551616 := by norm_num
    have hk63 : k + 1 ≤ 2 ^ 63 := by omega
    have hk63i : ((k + 1 : Nat) : Int) ≤ 9223372036854775808 := by exact_mod_cast hk63
    unfold toInt64
    rw [h63, h64, Int.negSucc_eq]
    push_cast at hk63i ⊢
    omega
  unfold ParseInt
  rw [hbs]
  simp only [or_true, if_true, decide_True, hp, hgt, hval, reduceCtorEq, if_false, and_false,
    false_and, Bool.true_eq_false]

/-- The decimal text of an integer in the range of the bit size parses back to it. -/
theorem ParseInt_repr (i : Int) (bitSize : Nat) (hb1 : 1 ≤ bitSize) (hb : bitSize ≤ 64)
    (hlo : -(2 ^ (bitSize - 1) : Int) ≤ i) (hhi : i < (2 ^ (bitSize - 1) : Int)) :
    ParseInt (toString i) bitSize = (i, none) := by
  cases i with
  | ofNat m =>
    have hm : m < 2 ^ (bitSize - 1) := by
      have : ((m : Nat) : Int) < ((2 ^ (bitSize - 1) : Nat) : Int) := by
        push_cast
        exact hhi
      exact_mod_cast this
    exact ParseInt_repr_nat m bitSize hb1 hb hm
  | negSucc k =>
    have hk : k + 1 ≤ 2 ^ (bitSize - 1) := by
      have : ((k + 1 : Nat) : Int) ≤ ((2 ^ (bitSize - 1) : Nat) : Int) := by
        rw [Int.negSucc_eq] at hlo
        push_cast at hlo ⊢
        omega
      exact_mod_cast this
    exact ParseInt_repr_neg k bitSize hb1 hb hk

/-! ### Scalar conversion: claims -/

/-- C3 as stated fails: the text `2147483648` does not parse as a signed 32-bit
integer (range error), and `parseStringValue` returns 2147483647 for it, not zero. -/
theorem parseStringValue_out_of_range_not_zero :
    isIntegerKind FieldType.TYPE_INT32 = true ∧
    parseError FieldType.TYPE_INT32 "2147483648" = some NumError.ErrRange ∧
    parseStringValue floatConv0 FieldType.TYPE_INT32 "2147483648" = DynValue.int32 2147483647 ∧
    parseStringValue floatConv0 FieldType.TYPE_INT32 "2147483648"
      ≠ zeroValue FieldType.TYPE_INT32 := by
  refine ⟨by decide, by decide, by rfl, ?_⟩
  have h : parseStringValue floatConv0 FieldType.TYPE_INT32 "2147483648"
      = DynValue.int32 2147483647 := by rfl
  rw [h]
  simp [zeroValue]

/-- C3, amended: `parseStringValue` has no error result. When the discarded `strconv`
error is a syntax error the result is the zero value of the kind's type; when it is
a range error (decimal text out of the type's range) the result is the type's
smallest value if the text starts with a minus sign and its largest value otherwise;
for bool every text that fails to parse gives false. -/
theorem parseStringValue_on_parse_failure (fc : FloatConv) (fdType : FieldType) (val : String) :
    (parseError fdType val = some NumError.ErrSyntax →
      parseStringValue fc fdType val = zeroValue fdType) ∧
    (parseError fdType val = some NumError.ErrRange →
      parseStringValue fc fdType val =
        if startsWithMinus val then minValue fdType else maxValue fdType) ∧
    (parseError FieldType.TYPE_BOOL val ≠ none →
      parseStringValue fc FieldType.TYPE_BOOL val = DynValue.bool false) := by
  have hi32 := ParseInt_error val 32
  have hi64 := ParseInt_error val 64
  have hu32 := ParseUint_error val 32
  have hu64 := ParseUint_error val 64
  have hb := ParseBool_error val
  have e1 : toInt64 (-toInt64 ((2 ^ (32 - 1) : Nat) : Int)) = -(2 ^ 31) := by decide
  have e2 : toInt64 ((2 ^ (32 - 1) - 1 : Nat) : Int) = 2 ^ 31 - 1 := by decide
  have e3 : toInt64 (-toInt64 ((2 ^ (64 - 1) : Nat) : Int)) = -(2 ^ 63) := by decide
  have e4 : toInt64 ((2 ^ (64 - 1) - 1 : Nat) : Int) = 2 ^ 63 - 1 := by decide
  have e5 : toInt32 (-(2 ^ 31)) = -(2 ^ 31) := by decide
  have e6 : toInt32 (2 ^ 31 - 1) = 2 ^ 31 - 1 := by decide
  have e7 : toInt32 0 = 0 := by decide
  have e8 : toUint32 (2 ^ 32 - 1) = 2 ^ 32 - 1 := by decide
  have e9 : toUint32 0 = 0 := by decide
  rw [e1, e2] at hi32
  rw [e3, e4] at hi64
  refine ⟨?_, ?_, ?_⟩
  · intro h
    cases fdType <;> simp only [parseError] at h <;>
      simp only [parseStringValue, zeroValue, reduceCtorEq] at h ⊢ <;>
      first
        | rw [hi32.1 h, e7]
        | rw [hi64.1 h]
        | rw [hu32.1 h, e9]
        | rw [hu64.1 h]
        | rw [hb.2 (by rw [h]; simp)]
  · intro h
    cases fdType <;> simp only [parseError] at h <;>
      simp only [parseStringValue, minValue, maxValue, reduceCtorEq] at h ⊢ <;>
      first
        | (rw [hi32.2 h]; split <;> simp only [e5, e6])
        | (rw [hi64.2 h]; split <;> rfl)
        | (rw [(hu32.2 h).1, (hu32.2 h).2, e8]; simp)
        | (rw [(hu64.2 h).1, (hu64.2 h).2]; simp)
        | exact absurd h hb.1
  · intro h
    simp only [parseError] at h
    simp only [parseStringValue]
    rw [hb.2 h]

theorem parseStringValue_on_parse_failure_witness :
    parseStringValue floatConv0 FieldType.TYPE_UINT32 "12x" = DynValue.uint32 0 ∧
    parseStringValue floatConv0 FieldType.TYPE_INT64 "-9223372036854775809"
      = DynValue.int64 (-(2 ^ 63)) ∧
    parseStringValue floatConv0 FieldType.TYPE_BOOL "yes" = DynValue.bool false :=
  ⟨(parseStringValue_on_parse_failure floatConv0 FieldType.TYPE_UINT32 "12x").1 (by decide),
   (parseStringValue_on_parse_failure floatConv0 FieldType.TYPE_INT64
      "-9223372036854775809").2.1 (by decide),
   (parseStringValue_on_parse_failure floatConv0 FieldType.TYPE_BOOL "yes").2.2 (by decide)⟩

/-! ### Controller: helper lemmas -/

theorem GoMap.get_set_same {κ ν : Type} [DecidableEq κ] (m : GoMap κ ν) (k : κ) (v : ν) :
    GoMap.get (GoMap.set m k v) k = some v := by
  induction m with
  | nil => simp [GoMap.set, GoMap.get]
  | cons e rest ih =>
    obtain ⟨k1, v1⟩ := e
    by_cases h : k1 = k
    · simp [GoMap.set, GoMap.get, h]
    · simp [GoMap.set, GoMap.get, h, ih]

theorem GoMap.get_set_other {κ ν : Type} [DecidableEq κ] (m : GoMap κ ν) (k k2 : κ) (v : ν)
    (hne : k ≠ k2) : GoMap.get (GoMap.set m k v) k2 = GoMap.get m k2 := by
  induction m with
  | nil => simp [GoMap.set, GoMap.get, hne]
  | cons e rest ih =>
    obtain ⟨k1, v1⟩ := e
    by_cases h : k1 = k
    · subst h
      simp [GoMap.set, GoMap.get, hne]
    · simp only [GoMap.set, h, if_false, GoMap.get, ih]

theorem GoMap.keys_set {κ ν : Type} [DecidableEq κ] (m : GoMap κ ν) (k : κ) (v : ν) :
    (GoMap.set m k v).map Prod.fst = if k ∈ m.map Prod.fst then m.map Prod.fst
      else m.map Prod.fst ++ [k] := by
  induction m with
  | nil => simp [GoMap.set]
  | cons e rest ih =>
    obtain ⟨k1, v1⟩ := e
    by_cases h : k1 = k
    · simp [GoMap.set, h]
    · have h2 : ¬ k = k1 := fun h3 => h h3.symm
      simp only [GoMap.set, h, if_false, List.map_cons, ih, List.mem_cons, h2, false_or]
      split <;> simp

theorem GoMap.nodup_set {κ ν : Type} [DecidableEq κ] (m : GoMap κ ν) (k : κ) (v : ν)
    (h : (m.map Prod.fst).Nodup) : ((GoMap.set m k v).map Prod.fst).Nodup := by
  rw [GoMap.keys_set]
  split
  · exact h
  · rename_i hk
    rw [List.nodup_append]
    exact ⟨h, by simp, by simpa using hk⟩

theorem buildMeta_get (kvs : List (String × String)) :
    ∀ (md : GoMap String String) (k : String),
      GoMap.get (buildMeta kvs md) k =
        if k = "" then GoMap.get md k
        else match lastValue k kvs with
          | some v => some v
          | none => GoMap.get md k := by
  induction kvs with
  | nil => intro md k; simp [buildMeta, lastValue]
  | cons kv rest ih =>
    intro md k
    simp only [buildMeta, lastValue]
    by_cases hkey : kv.1 = ""
    · simp only [hkey, if_true, ih]
      by_cases hk : k = ""
      · simp [hk]
      · have : ¬ "" = k := fun h => hk h.symm
        simp only [hk, if_false, this]
        cases lastValue k rest <;> simp
    · simp only [hkey, if_false, ih]
      by_cases hk : k = ""
      · subst hk
        simp only [if_true]
        exact GoMap.get_set_other md kv.1 "" kv.2 hkey
      · simp only [hk, if_false]
        cases lastValue k rest with
        | some v => simp
        | none =>
          by_cases hkk : kv.1 = k
          · simp [hkk, GoMap.get_set_same]
          · simp [hkk, GoMap.get_set_other md kv.1 k kv.2 hkk]

theorem buildMeta_nodup (kvs : List (String × String)) :
    ∀ md : GoMap String String, (md.map Prod.fst).Nodup →
      ((buildMeta kvs md).map Prod.fst).Nodup := by
  induction kvs with
  | nil => intro md h; simpa [buildMeta] using h
  | cons kv rest ih =>
    intro md h
    simp only [buildMeta]
    split
    · exact ih md h
    · exact ih _ (GoMap.nodup_set md kv.1 kv.2 h)

theorem lastValue_isSome (k : String) (kvs : List (String × String)) :
    (lastValue k kvs).isSome = true ↔ ∃ v, (k, v) ∈ kvs := by
  induction kvs with
  | nil => simp [lastValue]
  | cons kv rest ih =>
    obtain ⟨k1, v1⟩ := kv
    simp only [lastValue, List.mem_cons, Prod.mk.injEq]
    cases hl : lastValue k rest with
    | some v =>
      have : ∃ v, (k, v) ∈ rest := ih.mp (by simp [hl])
      obtain ⟨w, hw⟩ := this
      simp only [Option.isSome_some, true_iff]
      exact ⟨w, Or.inr hw⟩
    | none =>
      have hnone : ¬ ∃ v, (k, v) ∈ rest := fun h => by simpa [hl] using ih.mpr h
      by_cases hk : k1 = k
      · simp only [hk, if_true, Option.isSome_some, true_iff]
        exact ⟨v1, Or.inl (by simp)⟩
      · simp only [hk, if_false, Option.isSome_none, Bool.false_eq_true, false_iff]
        rintro ⟨v, hv | hv⟩
        · exact hk hv.1.symm
        · exact hnone ⟨v, hv⟩

theorem World.connect_inv (w : World) (addr : String) (dial : DialResult) (h : w.Inv) :
    (w.connect addr dial).Inv := by
  obtain ⟨⟨conn, cancel, oaddr⟩, opened, pan⟩ := w
  obtain ⟨hopen, hcancel, hpan⟩ := h
  simp only at hopen hcancel hpan
  subst hpan
  subst hopen
  unfold World.Inv World.connect Wombat.connect
  by_cases ha : addr = ""
  · simpa [ha] using hcancel
  · cases conn with
    | none =>
      cases dial with
      | failed err => simp [ha, closeExisting, openAfter]
      | connected nc => simp [ha, closeExisting, openAfter]
    | some oc =>
      have hc : cancel = some oc := hcancel oc rfl
      subst hc
      by_cases hsame : oaddr = addr
      · simp [ha, hsame]
      · cases dial with
        | failed err => simp [ha, hsame, closeExisting, openAfter]
        | connected nc => simp [ha, hsame, closeExisting, openAfter]

theorem World.run_inv (calls : List (String × DialResult)) :
    ∀ w : World, w.Inv → (w.run calls).Inv := by
  induction calls with
  | nil => intro w h; exact h
  | cons call rest ih => intro w h; exact ih _ (World.connect_inv w call.1 call.2 h)

theorem World.initial_inv (addr : String) : (World.initial addr).Inv := by
  simp [World.Inv, World.initial]

/-! ### Controller: claims -/

/-- C5 as stated fails: with no connection, `send` returns nil, not an error. -/
theorem send_without_connection_returns_nil :
    send floatConv0 (fun _ _ _ _ => some "unreachable")
      { grpcConn := none, cancelCtxFunc := none, optionsAddr := "localhost:443" }
      { GetMethodDesc := fun _ _ => 0, RequestModel := none, MetadataList := [] }
      "Greeter" "SayHello" = (Outcome.returned none, []) := by
  rfl

/-- C5, amended: for every service and method name, when the controller has no
active connection (`grpcConn` is nil), `send` returns immediately with a nil error
and performs no call. -/
theorem send_without_connection (fc : FloatConv)
    (invokeMethod : Nat → Nat → DynMessage → GoMap String String → Option String)
    (c : workspaceController) (input : inputController) (service method : String)
    (h : c.grpcConn = none) :
    send fc invokeMethod c input service method = (Outcome.returned none, []) := by
  simp [send, h]

theorem send_without_connection_witness :
    send floatConv0 (fun _ _ _ _ => some "rpc error")
      { grpcConn := none, cancelCtxFunc := some 3, optionsAddr := "" }
      { GetMethodDesc := fun _ _ => 0, RequestModel := none, MetadataList := [("k", "v")] }
      "Greeter" "SayHello" = (Outcome.returned none, []) :=
  send_without_connection floatConv0 _ _ _ "Greeter" "SayHello" rfl

/-- C6: the metadata map that `send` builds holds a key `k` exactly when `k` is
non-empty and some entry has key `k`, it maps `k` to the value of the last such
entry, it has one entry per key, and `send` hands this map to `invokeMethod`; the
entries `("", v), ("auth", "x")` give exactly the one entry `"auth": "x"`. -/
theorem send_metadata (kvs : List (String × String)) (k : String) :
    GoMap.get (buildMeta kvs []) k = (if k = "" then none else lastValue k kvs) ∧
    ((GoMap.get (buildMeta kvs []) k).isSome = true ↔ k ≠ "" ∧ ∃ v, (k, v) ∈ kvs) ∧
    ((buildMeta kvs []).map Prod.fst).Nodup ∧
    (∀ v, buildMeta [("", v), ("auth", "x")] [] = [("auth", "x")]) ∧
    (∀ fc invokeMethod conn cancel addr getMd (msg : Message) service method,
      (send fc invokeMethod ⟨some conn, cancel, addr⟩ ⟨getMd, some msg, kvs⟩ service method).2
        = (match processMessage fc msg with
          | none => []
          | some req => [Event.Invoke conn (getMd service method) req (buildMeta kvs [])])) := by
  have hget : GoMap.get (buildMeta kvs []) k = (if k = "" then none else lastValue k kvs) := by
    rw [buildMeta_get]
    by_cases hk : k = ""
    · simp [hk, GoMap.get]
    · simp only [hk, if_false]
      cases lastValue k kvs <;> simp [GoMap.get]
  refine ⟨hget, ?_, buildMeta_nodup kvs [] (by simp), ?_, ?_⟩
  · rw [hget]
    by_cases hk : k = ""
    · simp [hk]
    · simp only [hk, if_false, ne_eq, not_false_eq_true, true_and]
      exact lastValue_isSome k kvs
  · intro v
    simp [buildMeta, GoMap.set]
  · intro fc invokeMethod conn cancel addr getMd msg service method
    simp only [send, processPointer]
    cases processMessage fc msg <;> rfl

/-- C7: for a non-empty address, when a connection is active and the stored address
is that address, `connect` returns nil with no effect at all (no dial, no close, no
cancel, no observer) and leaves the controller unchanged, so a second call does
the same as the first. -/
theorem connect_same_address_noop (c : workspaceController) (addr : String)
    (dial dial2 : DialResult) (haddr : addr ≠ "") (hconn : c.grpcConn ≠ none)
    (hsame : c.optionsAddr = addr) :
    connect c addr dial = (c, Outcome.returned none, []) ∧
    connect (connect c addr dial).1 addr dial2 = connect c addr dial := by
  have h : ∀ d, connect c addr d = (c, Outcome.returned none, []) := by
    intro d
    simp [connect, haddr, hconn, hsame]
  rw [h dial]
  exact ⟨rfl, h dial2⟩

theorem connect_same_address_noop_witness :
    connect ⟨some 1, some 1, "localhost:443"⟩ "localhost:443" (DialResult.connected 2)
      = (⟨some 1, some 1, "localhost:443"⟩, Outcome.returned none, []) :=
  (connect_same_address_noop ⟨some 1, some 1, "localhost:443"⟩ "localhost:443"
    (DialResult.connected 2) (DialResult.failed "refused") (by decide) (by simp) rfl).1

/-- C9: after every sequence of `connect` calls from the initial state, with any
addresses and dial results, the connections opened and not yet closed are exactly
the one held in `grpcConn` (so at most one), and no call panicked; and a further
`connect` either has no effect at all or its effects start with the close of the
existing connection and the cancel of its observer, followed by the dial. -/
theorem connect_single_connection (addr0 : String) (calls : List (String × DialResult))
    (addr : String) (dial : DialResult) :
    ((World.initial addr0).run calls).opened
      = ((World.initial addr0).run calls).ctrl.grpcConn.toList ∧
    ((World.initial addr0).run calls).opened.length ≤ 1 ∧
    ((World.initial addr0).run calls).panicked = false ∧
    (connect ((World.initial addr0).run calls).ctrl addr dial).2.2 =
      (if addr = "" ∨ (((World.initial addr0).run calls).ctrl.optionsAddr = addr ∧
          ((World.initial addr0).run calls).ctrl.grpcConn ≠ none) then []
       else (match ((World.initial addr0).run calls).ctrl.grpcConn with
          | some conn => [Event.Close conn, Event.Cancel conn]
          | none => []) ++
        (match dial with
          | DialResult.failed _ => [Event.Dial addr dial]
          | DialResult.connected conn =>
            [Event.Dial addr dial, Event.Observe conn conn, Event.SetAddr addr,
              Event.Put addr])) := by
  have hinv := World.run_inv calls (World.initial addr0) (World.initial_inv addr0)
  generalize (World.initial addr0).run calls = w at hinv
  obtain ⟨⟨conn, cancel, oaddr⟩, opened, pan⟩ := w
  obtain ⟨hopen, hcancel, hpan⟩ := hinv
  simp only at hopen hcancel hpan
  refine ⟨hopen, ?_, hpan, ?_⟩
  · simp only [hopen]
    cases conn <;> simp
  · simp only
    unfold connect
    by_cases ha : addr = ""
    · simp [ha]
    · cases conn with
      | none => cases dial <;> simp [ha, closeExisting]
      | some oc =>
        have hc : cancel = some oc := hcancel oc rfl
        subst hc
        by_cases hsame : oaddr = addr
        · simp [ha, hsame]
        · cases dial <;> simp [ha, hsame, closeExisting]

/-! ### Message builder: helper lemmas -/

theorem GoMap.get_delete_same {κ ν : Type} [DecidableEq κ] (m : GoMap κ ν) (k : κ) :
    GoMap.get (GoMap.delete m k) k = none := by
  induction m with
  | nil => simp [GoMap.delete, GoMap.get]
  | cons e rest ih =>
    obtain ⟨k1, v1⟩ := e
    by_cases h : k1 = k
    · simp only [GoMap.delete, h, if_true, ih]
    · simp only [GoMap.delete, h, if_false, GoMap.get, ih]

theorem GoMap.get_delete_other {κ ν : Type} [DecidableEq κ] (m : GoMap κ ν) (k k2 : κ)
    (hne : k ≠ k2) : GoMap.get (GoMap.delete m k) k2 = GoMap.get m k2 := by
  induction m with
  | nil => simp [GoMap.delete, GoMap.get]
  | cons e rest ih =>
    obtain ⟨k1, v1⟩ := e
    by_cases h : k1 = k
    · subst h
      simp only [GoMap.delete, if_true, GoMap.get, hne, if_false, ih]
    · simp only [GoMap.delete, h, if_false, GoMap.get, ih]

theorem clearOneOf_get (o : Nat) (n k : Int) :
    ∀ (fields : List FieldDescriptor) (values : List (Int × AnyValue)),
      (∀ other ∈ fields, other.OneOf = some o → other.Number ≠ n → other.Number ≠ k) →
      GoMap.get (clearOneOf o n fields values) k = GoMap.get values k := by
  intro fields
  induction fields with
  | nil => intro values _; rfl
  | cons other rest ih =>
    intro values h
    have hrest : ∀ x ∈ rest, x.OneOf = some o → x.Number ≠ n → x.Number ≠ k :=
      fun x hx => h x (List.mem_cons_of_mem _ hx)
    simp only [clearOneOf]
    split
    · rename_i hc
      rw [ih _ hrest]
      exact GoMap.get_delete_other values other.Number k
        (h other (List.mem_cons_self _ _) hc.1 hc.2)
    · exact ih _ hrest

theorem find_mem (md : MessageDescriptor) (n : Int) (fd : FieldDescriptor)
    (h : md.FindFieldByNumber n = some fd) : fd ∈ md.Fields ∧ fd.Number = n := by
  unfold MessageDescriptor.FindFieldByNumber at h
  exact ⟨List.mem_of_find?_eq_some h, by simpa using List.find?_some h⟩

theorem field_eq_of_number (md : MessageDescriptor)
    (hnd : (md.Fields.map FieldDescriptor.Number).Nodup) (a b : FieldDescriptor)
    (ha : a ∈ md.Fields) (hb : b ∈ md.Fields) (h : a.Number = b.Number) : a = b :=
  List.inj_on_of_nodup_map hnd ha hb h

theorem internalSetField_read_same (md : MessageDescriptor) (values : List (Int × AnyValue))
    (fd : FieldDescriptor) (w : AnyValue) (hs : Stable fd w) :
    readTable (internalSetField md values fd w) fd = w := by
  unfold readTable internalSetField
  by_cases h1 : fd.IsRepeated = true ∧ w.len = 0
  · rw [if_pos h1, GoMap.get_delete_same]
    exact hs.1 h1.1 h1.2
  · rw [if_neg h1]
    by_cases h2 : fd.IsRepeated = false ∧ md.IsProto3 = true ∧ fd.OneOf = none ∧
        fd.isDefault w = true
    · rw [if_pos h2, GoMap.get_delete_same]
      exact hs.2 h2.1 h2.2.2.2
    · rw [if_neg h2]
      cases fd.OneOf with
      | none => simp only [GoMap.get_set_same]
      | some o =>
        simp only []
        rw [clearOneOf_get o fd.Number fd.Number md.Fields _ (fun _ _ _ hne => hne),
          GoMap.get_set_same]

theorem internalSetField_read_other (md : MessageDescriptor) (values : List (Int × AnyValue))
    (fd fd2 : FieldDescriptor) (w : AnyValue) (hne : fd.Number ≠ fd2.Number)
    (hone : ∀ o, fd.OneOf = some o → ∀ other ∈ md.Fields, other.Number = fd2.Number →
      other.OneOf ≠ some o) :
    GoMap.get (internalSetField md values fd w) fd2.Number = GoMap.get values fd2.Number := by
  unfold internalSetField
  by_cases h1 : fd.IsRepeated = true ∧ w.len = 0
  · rw [if_pos h1]
    exact GoMap.get_delete_other values _ _ hne
  · rw [if_neg h1]
    by_cases h2 : fd.IsRepeated = false ∧ md.IsProto3 = true ∧ fd.OneOf = none ∧
        fd.isDefault w = true
    · rw [if_pos h2]
      exact GoMap.get_delete_other values _ _ hne
    · rw [if_neg h2]
      cases ho : fd.OneOf with
      | none => exact GoMap.get_set_other values _ _ w hne
      | some o =>
        simp only []
        rw [clearOneOf_get o fd.Number fd2.Number md.Fields _
          (fun other hm hoo _ heq => hone o ho other hm heq hoo)]
        exact GoMap.get_set_other values _ _ w hne

theorem FieldSets.unique {fc : FloatConv} {md : MessageDescriptor} {f : Field}
    {w1 w2 : AnyValue} (h1 : FieldSets fc md f w1) (h2 : FieldSets fc md f w2) : w1 = w2 := by
  obtain ⟨fd1, v1, hd1, _, hv1, hw1, _⟩ := h1
  obtain ⟨fd2, v2, hd2, _, hv2, hw2, _⟩ := h2
  rw [hd1] at hd2
  rw [hv1] at hv2
  cases hd2
  cases hv2
  rw [hw1] at hw2
  exact Option.some.inj hw2

theorem GetFieldByNumber_mk (md : MessageDescriptor) (values : List (Int × AnyValue))
    (tag : Int) (fd : FieldDescriptor) (h : md.FindFieldByNumber (toInt32 tag) = some fd) :
    (DynMessage.mk md values).GetFieldByNumber tag = some (readTable values fd) := by
  unfold DynMessage.GetFieldByNumber readTable
  have h1 : (DynMessage.mk md values).md = md := rfl
  have h2 : (DynMessage.mk md values).values = values := rfl
  rw [h1, h2, h]
  simp only []
  cases hg : GoMap.get values fd.Number <;> rfl

theorem SetFieldByNumber_mk (fc : FloatConv) (md : MessageDescriptor)
    (values : List (Int × AnyValue)) (tag : Int) (v : DynValue) (fd : FieldDescriptor)
    (h : md.FindFieldByNumber (toInt32 tag) = some fd) :
    (DynMessage.mk md values).SetFieldByNumber fc tag v =
      (validFieldValue fc fd v).map (fun w => DynMessage.mk md (internalSetField md values fd w)) := by
  unfold DynMessage.SetFieldByNumber
  have h1 : (DynMessage.mk md values).md = md := rfl
  have h2 : (DynMessage.mk md values).values = values := rfl
  rw [h1, h2, h]
  simp only []
  cases hv : validFieldValue fc fd v <;> rfl

theorem setField_get_same (fc : FloatConv) (dm : DynMessage) (f : Field) (w : AnyValue)
    (h : FieldSets fc dm.md f w) :
    ∃ v dm1, fieldValue fc f = some v ∧ dm.SetFieldByNumber fc f.Tag v = some dm1 ∧
      dm1.md = dm.md ∧ dm1.GetFieldByNumber f.Tag = some w := by
  obtain ⟨md, values⟩ := dm
  have hmd : (DynMessage.mk md values).md = md := rfl
  rw [hmd] at h ⊢
  obtain ⟨fd, v, hd, _, hv, hw, hs⟩ := h
  unfold Field.descriptor at hd
  refine ⟨v, DynMessage.mk md (internalSetField md values fd w), hv, ?_, rfl, ?_⟩
  · rw [SetFieldByNumber_mk fc md values f.Tag v fd hd, hw]
    rfl
  · rw [GetFieldByNumber_mk md _ f.Tag fd hd, internalSetField_read_same md values fd w hs]

theorem setField_get_other (fc : FloatConv) (dm dm1 : DynMessage) (g : Field) (v : DynValue)
    (hset : dm.SetFieldByNumber fc g.Tag v = some dm1)
    (hnd : (dm.md.Fields.map FieldDescriptor.Number).Nodup)
    (tag : Int) (fd2 : FieldDescriptor) (hfd2 : dm.md.FindFieldByNumber (toInt32 tag) = some fd2)
    (hsep : ∀ fdg, g.descriptor dm.md = some fdg →
      fdg.Number ≠ fd2.Number ∧ ∀ o, fdg.OneOf = some o → fd2.OneOf ≠ some o) :
    dm1.GetFieldByNumber tag = dm.GetFieldByNumber tag := by
  obtain ⟨md, values⟩ := dm
  have hmd : (DynMessage.mk md values).md = md := rfl
  rw [hmd] at hnd hfd2 hsep
  cases hd : md.FindFieldByNumber (toInt32 g.Tag) with
  | none =>
    unfold DynMessage.SetFieldByNumber at hset
    rw [hmd, hd] at hset
    exact absurd hset (by simp)
  | some fdg =>
    rw [SetFieldByNumber_mk fc md values g.Tag v fdg hd] at hset
    cases hw : validFieldValue fc fdg v with
    | none =>
      rw [hw] at hset
      exact absurd hset (by simp)
    | some w =>
      rw [hw] at hset
      have hdm1 : dm1 = DynMessage.mk md (internalSetField md values fdg w) :=
        (Option.some.inj hset).symm
      obtain ⟨hne, hone⟩ := hsep fdg hd
      have hmem2 := (find_mem md _ fd2 hfd2).1
      have hother := internalSetField_read_other md values fdg fd2 w hne
        (fun o ho other hm heq => by
          have : other = fd2 := field_eq_of_number md hnd other fd2 hm hmem2 heq
          rw [this]
          exact hone o ho)
      rw [hdm1, GetFieldByNumber_mk md _ tag fd2 hfd2, GetFieldByNumber_mk md _ tag fd2 hfd2]
      unfold readTable
      rw [hother]

/-- The loop over the fields returns when every field can be set, and with unique
tags and no two fields in one oneof each field reads back as the value kept for
it. -/
theorem processFields_get (fc : FloatConv) (md : MessageDescriptor)
    (hnd : (md.Fields.map FieldDescriptor.Number).Nodup) :
    ∀ (fs : List Field) (dm : DynMessage), dm.md = md →
      (∀ f ∈ fs, ∃ w, FieldSets fc md f w) →
      ∃ dm1, processFields fc fs dm = some dm1 ∧ dm1.md = md ∧
        (∀ tag fd2, md.FindFieldByNumber (toInt32 tag) = some fd2 →
          (∀ g ∈ fs, ∀ fdg, g.descriptor md = some fdg →
            fdg.Number ≠ fd2.Number ∧ ∀ o, fdg.OneOf = some o → fd2.OneOf ≠ some o) →
          dm1.GetFieldByNumber tag = dm.GetFieldByNumber tag) ∧
        ((fs.map Field.Tag).Nodup → NoSharedOneOf md fs →
          ∀ f ∈ fs, ∀ w, FieldSets fc md f w → dm1.GetFieldByNumber f.Tag = some w) := by
  intro fs
  induction fs with
  | nil =>
    intro dm hmd _
    exact ⟨dm, by simp [processFields], hmd, by simp, by simp⟩
  | cons f rest ih =>
    intro dm hmd hall
    subst hmd
    obtain ⟨w, hw⟩ := hall f (List.mem_cons_self _ _)
    obtain ⟨v, dm0, hv, hset, hmd0, hget0⟩ := setField_get_same fc dm f w hw
    obtain ⟨dm1, hrun, hmd1, hother, hget⟩ :=
      ih dm0 hmd0 (fun g hg => hall g (List.mem_cons_of_mem _ hg))
    refine ⟨dm1, by simp only [processFields, hv, hset, hrun], hmd1, ?_, ?_⟩
    · intro tag fd2 hfd2 hsep
      rw [hother tag fd2 hfd2 (fun g hg => hsep g (List.mem_cons_of_mem _ hg))]
      exact setField_get_other fc dm dm0 f v hset hnd tag fd2 hfd2
        (hsep f (List.mem_cons_self _ _))
    · intro htags hshare g hg w2 hw2
      simp only [List.map_cons, List.nodup_cons] at htags
      rcases List.mem_cons.mp hg with hg | hg
      · subst hg
        obtain ⟨fd, _, hd, hnum, _, _, _⟩ := id hw2
        have hd2 : dm.md.FindFieldByNumber (toInt32 g.Tag) = some fd := hd
        rw [hother g.Tag fd hd2 ?_, hget0, FieldSets.unique hw hw2]
        intro h hh fdh hdh
        obtain ⟨wh, hwh⟩ := hall h (List.mem_cons_of_mem _ hh)
        obtain ⟨fdh2, _, hdh2, hnumh, _, _, _⟩ := hwh
        rw [hdh] at hdh2
        cases hdh2
        have htag : h.Tag ≠ g.Tag := by
          intro heq
          exact htags.1 (heq ▸ List.mem_map_of_mem Field.Tag hh)
        refine ⟨by rw [hnumh, hnum]; exact htag, ?_⟩
        exact hshare h (List.mem_cons_of_mem _ hh) g (List.mem_cons_self _ _) htag fdh fd hdh hd
      · exact hget htags.2
          (fun a ha b hb => hshare a (List.mem_cons_of_mem _ ha) b (List.mem_cons_of_mem _ hb))
          g hg w2 hw2

theorem parseStringValue_of_denotes (fc : FloatConv) (fdType : FieldType) (val : String)
    (v : DynValue) (h : Denotes fdType val v) : parseStringValue fc fdType val = v := by
  have hi32 : ∀ i : Int, -(2 ^ 31) ≤ i → i < 2 ^ 31 →
      DynValue.int32 (toInt32 (ParseInt (toString i) 32).1) = DynValue.int32 i := by
    intro i h1 h2
    rw [ParseInt_repr i 32 (by norm_num) (by norm_num) (by simpa using h1) (by simpa using h2)]
    simp only [toInt32_of_range i h1 h2]
  have hi64 : ∀ i : Int, -(2 ^ 63) ≤ i → i < 2 ^ 63 →
      DynValue.int64 (ParseInt (toString i) 64).1 = DynValue.int64 i := by
    intro i h1 h2
    rw [ParseInt_repr i 64 (by norm_num) (by norm_num) (by simpa using h1) (by simpa using h2)]
  have hu32 : ∀ n : Nat, n < 2 ^ 32 →
      DynValue.uint32 (toUint32 (ParseUint (toString n) 32).1) = DynValue.uint32 n := by
    intro n h1
    rw [ParseUint_repr n 32 (by norm_num) h1]
    simp only [toUint32, Nat.mod_eq_of_lt h1]
  have hu64 : ∀ n : Nat, n < 2 ^ 64 →
      DynValue.uint64 (ParseUint (toString n) 64).1 = DynValue.uint64 n := by
    intro n h1
    rw [ParseUint_repr n 64 (by norm_num) h1]
  cases fdType <;> simp only [Denotes] at h <;> simp only [parseStringValue] <;>
    first
      | exact h.elim
      | exact h.symm
      | (obtain ⟨i, h1, h2, rfl, rfl⟩ := h; first | exact hi32 i h1 h2 | exact hi64 i h1 h2)
      | (obtain ⟨n, h1, rfl, rfl⟩ := h; first | exact hu32 n h1 | exact hu64 n h1)
      | (rcases h with ⟨rfl, rfl⟩ | ⟨rfl, rfl⟩ <;> rfl)

theorem fieldValue_scalar (fc : FloatConv) (f : Field) (h : f.FdType ≠ FieldType.TYPE_MESSAGE) :
    fieldValue fc f = some (scalarFieldValue fc f) := by
  obtain ⟨fdType, isRepeated, tag, value, message, values⟩ := f
  simp only [Field.FdType] at h
  cases fdType <;> first
    | exact absurd rfl h
    | (cases isRepeated <;>
        simp [fieldValue, scalarFieldValue, Field.IsRepeated, Field.Values, Field.FdType,
          Field.Value])

theorem isDefault_exact (fd : FieldDescriptor) (v : DynValue)
    (hv : ∀ b, v ≠ DynValue.float64 b ∧ v ≠ DynValue.float32 b)
    (h : fd.isDefault (AnyValue.value v) = true) : fd.DefaultValue = v := by
  cases v <;> cases hd : fd.DefaultValue <;>
    simp_all [FieldDescriptor.isDefault, goEq]

theorem isDefault_message (fd : FieldDescriptor) (m : DynMessage) :
    fd.isDefault (AnyValue.value (DynValue.message m)) = false := by
  cases hd : fd.DefaultValue <;> simp [FieldDescriptor.isDefault, goEq]

theorem denotes_valid (fc : FloatConv) (fd : FieldDescriptor) (val : String) (v : DynValue)
    (h : Denotes fd.FdType val v) :
    validElementFieldValue fc fd v = some v ∧
      (∀ b, v ≠ DynValue.float64 b ∧ v ≠ DynValue.float32 b) ∧
      fd.FdType ≠ FieldType.TYPE_MESSAGE ∧ fd.FdType ≠ FieldType.TYPE_GROUP := by
  unfold validElementFieldValue
  cases hk : fd.FdType <;> rw [hk] at h <;> simp only [Denotes] at h <;>
    first
      | exact h.elim
      | (refine Or.elim h (fun hb => ?_) (fun hb => ?_) <;> (rw [hb.2]; simp))
      | (subst h; simp)
      | (obtain ⟨n, _, _, hv⟩ := h; subst hv; simp)
      | (obtain ⟨i, _, _, _, hv⟩ := h; subst hv; simp)

theorem validElements_self (fc : FloatConv) (fd : FieldDescriptor) :
    ∀ l : List DynValue, (∀ e ∈ l, validElementFieldValue fc fd e = some e) →
      validElements fc fd l = some l := by
  intro l
  induction l with
  | nil => intro _; rfl
  | cons e rest ih =>
    intro h
    simp only [validElements, h e (List.mem_cons_self _ _),
      ih (fun x hx => h x (List.mem_cons_of_mem _ hx))]

theorem defaultRead_scalar (fd : FieldDescriptor) (hrep : fd.IsRepeated = false)
    (hmap : fd.IsMap = false) (h1 : fd.FdType ≠ FieldType.TYPE_MESSAGE)
    (h2 : fd.FdType ≠ FieldType.TYPE_GROUP) :
    fd.defaultRead = AnyValue.value fd.DefaultValue := by
  unfold FieldDescriptor.defaultRead
  rw [hrep, hmap]
  cases hk : fd.FdType <;> first
    | exact absurd hk h1
    | exact absurd hk h2
    | simp

theorem stable_scalar (fd : FieldDescriptor) (v : DynValue) (hrep : fd.IsRepeated = false)
    (hmap : fd.IsMap = false) (h1 : fd.FdType ≠ FieldType.TYPE_MESSAGE)
    (h2 : fd.FdType ≠ FieldType.TYPE_GROUP)
    (hv : ∀ b, v ≠ DynValue.float64 b ∧ v ≠ DynValue.float32 b) :
    Stable fd (AnyValue.value v) := by
  refine ⟨fun h => ?_, fun _ h => ?_⟩
  · rw [hrep] at h
    exact absurd h (by simp)
  · rw [defaultRead_scalar fd hrep hmap h1 h2, isDefault_exact fd v hv h]

theorem stable_message (fd : FieldDescriptor) (m : DynMessage) (hrep : fd.IsRepeated = false) :
    Stable fd (AnyValue.value (DynValue.message m)) := by
  refine ⟨fun h => ?_, fun _ h => ?_⟩
  · rw [hrep] at h
    exact absurd h (by simp)
  · rw [isDefault_message] at h
    exact absurd h (by simp)

theorem stable_slice (fd : FieldDescriptor) (s : List DynValue) (hrep : fd.IsRepeated = true)
    (hmap : fd.IsMap = false) : Stable fd (AnyValue.value (DynValue.slice s)) := by
  refine ⟨fun _ h => ?_, fun h => ?_⟩
  · simp only [AnyValue.len, List.length_eq_zero] at h
    subst h
    unfold FieldDescriptor.defaultRead
    rw [hrep, hmap]
    simp
  · rw [hrep] at h
    exact absurd h (by simp)

theorem validFieldValue_singular (fc : FloatConv) (fd : FieldDescriptor) (v : DynValue)
    (hrep : fd.IsRepeated = false) (hv : validElementFieldValue fc fd v = some v) :
    validFieldValue fc fd v = some (AnyValue.value v) := by
  unfold validFieldValue
  rw [hrep, hv]
  simp

theorem validFieldValue_slice (fc : FloatConv) (fd : FieldDescriptor) (s : List DynValue)
    (hrep : fd.IsRepeated = true) (hmap : fd.IsMap = false)
    (hs : ∀ e ∈ s, validElementFieldValue fc fd e = some e) :
    validFieldValue fc fd (DynValue.slice s) = some (AnyValue.value (DynValue.slice s)) := by
  simp only [validFieldValue, hrep, hmap, if_true, Bool.false_eq_true, if_false,
    validElements_self fc fd s hs]

theorem validElementFieldValue_message (fc : FloatConv) (fd : FieldDescriptor) (m : DynMessage)
    (hk : fd.FdType = FieldType.TYPE_MESSAGE) (hname : m.md.Name = fd.MessageType) :
    validElementFieldValue fc fd (DynValue.message m) = some (DynValue.message m) := by
  unfold validElementFieldValue
  rw [hk]
  simp [hname]

mutual
theorem processMessage_of_matches (fc : FloatConv) :
    ∀ m : Message, m.Matches true → ∃ dm, processMessage fc m = some dm ∧ dm.md = m.Ref
  | Message.mk ref fields, h => by
    simp only [Message.Matches] at h
    obtain ⟨dm1, hrun, hmd, _, _⟩ := processFields_get fc ref h.1 fields
      (DynMessage.NewMessage ref) rfl
      (fun f hf => (fieldSets_of_fieldsMatch fc ref fields h.2.2.2 f hf).imp fun _ hv => hv.1)
    exact ⟨dm1, by simpa only [processMessage] using hrun, hmd⟩
theorem fieldSets_of_fieldsMatch (fc : FloatConv) (ref : MessageDescriptor) :
    ∀ fs : List Field, FieldsMatch true ref fs →
      ∀ f ∈ fs, ∃ w, FieldSets fc ref f w ∧ ReadsBack fc f (some w)
  | [], _ => by simp
  | g :: rest, h => by
    simp only [FieldsMatch] at h
    intro f hf
    rcases List.mem_cons.mp hf with hf | hf
    · subst hf
      exact fieldSets_of_matches fc ref f h.1
    · exact fieldSets_of_fieldsMatch fc ref rest h.2 f hf
theorem fieldSets_of_matches (fc : FloatConv) (ref : MessageDescriptor) :
    ∀ f : Field, FieldMatches true ref f → ∃ w, FieldSets fc ref f w ∧ ReadsBack fc f (some w)
  | Field.mk fdType isRepeated tag value message values, h => by
    simp only [FieldMatches] at h
    obtain ⟨fd, hfind, hnum, hkind, hrep, hmap, hrest⟩ := h
    have hmap : fd.IsMap = false := hmap trivial
    by_cases hm : fdType = FieldType.TYPE_MESSAGE
    · subst hm
      cases isRepeated with
      | true =>
        simp only [if_true] at hrest
        obtain ⟨items, hrun, hall, hnames⟩ :=
          processMsgValues_of_matches fc fd.MessageType values hrest []
        refine ⟨AnyValue.value (DynValue.slice items), ⟨fd, DynValue.slice items, hfind, hnum,
          ?_, ?_, stable_slice fd items hrep hmap⟩, ?_⟩
        · simp only [fieldValue, if_true, hrun, List.nil_append]
        · apply validFieldValue_slice fc fd items hrep hmap
          intro e he
          obtain ⟨dm, rfl, hname⟩ := hnames e he
          exact validElementFieldValue_message fc fd dm hkind hname
        · simp only [ReadsBack, Field.FdType, Field.IsRepeated, if_true, Field.Values]
          exact ⟨items, rfl, hall⟩
      | false =>
        simp only [Bool.false_eq_true, if_false] at hrest
        obtain ⟨m, dm, hp, hrun, hname⟩ := processPointer_of_matches fc fd.MessageType message hrest
        refine ⟨AnyValue.value (DynValue.message dm), ⟨fd, DynValue.message dm, hfind, hnum,
          ?_, ?_, stable_message fd dm hrep⟩, ?_⟩
        · simp only [fieldValue, Bool.false_eq_true, if_false, hp, processPointer, hrun]
        · exact validFieldValue_singular fc fd _ hrep
            (validElementFieldValue_message fc fd dm hkind hname)
        · simp only [ReadsBack, Field.FdType, Field.IsRepeated, if_true, Bool.false_eq_true,
            if_false, Field.Message]
          exact ⟨m, dm, hp, hrun, rfl⟩
    · have hval := fieldValue_scalar fc (Field.mk fdType isRepeated tag value message values) hm
      have hmatch : if isRepeated = true then ∀ fv ∈ values, ∃ v, Denotes fdType fv.Value v
          else ∃ v, Denotes fdType value v := by
        cases fdType <;> first | exact absurd rfl hm | exact hrest
      cases isRepeated with
      | true =>
        simp only [if_true] at hmatch
        have hden : ∀ fv ∈ values,
            Denotes fd.FdType fv.Value (parseStringValue fc fdType fv.Value) := by
          intro fv hfv
          obtain ⟨v, hv⟩ := hmatch fv hfv
          rw [parseStringValue_of_denotes fc fdType fv.Value v hv, hkind]
          exact hv
        refine ⟨AnyValue.value (scalarFieldValue fc
          (Field.mk fdType true tag value message values)), ⟨fd, _, hfind, hnum, hval, ?_, ?_⟩, ?_⟩
        · simp only [scalarFieldValue, Field.IsRepeated, if_true, Field.Values, Field.FdType]
          apply validFieldValue_slice fc fd _ hrep hmap
          intro e he
          obtain ⟨fv, hfv, rfl⟩ := List.mem_map.mp he
          exact (denotes_valid fc fd fv.Value _ (hden fv hfv)).1
        · simp only [scalarFieldValue, Field.IsRepeated, if_true]
          exact stable_slice fd _ hrep hmap
        · simp only [ReadsBack, Field.FdType, hm, if_false, Field.IsRepeated, if_true,
            Field.Values, scalarFieldValue]
          refine ⟨_, rfl, ?_⟩
          rw [List.forall₂_map_right_iff, List.forall₂_same]
          intro fv hfv
          have := hden fv hfv
          rw [hkind] at this
          exact this
      | false =>
        simp only [Bool.false_eq_true, if_false] at hmatch
        obtain ⟨v, hv⟩ := hmatch
        have hparse := parseStringValue_of_denotes fc fdType value v hv
        have hv2 : Denotes fd.FdType value v := by rw [hkind]; exact hv
        obtain ⟨hvalid, hexact, hk1, hk2⟩ := denotes_valid fc fd value v hv2
        refine ⟨AnyValue.value v, ⟨fd, v, hfind, hnum, ?_, ?_, ?_⟩, ?_⟩
        · rw [hval]
          simp only [scalarFieldValue, Field.IsRepeated, Bool.false_eq_true, if_false,
            Field.FdType, Field.Value, hparse]
        · exact validFieldValue_singular fc fd v hrep hvalid
        · exact stable_scalar fd v hrep hmap hk1 hk2 hexact
        · simp only [ReadsBack, Field.FdType, hm, if_false, Field.IsRepeated,
            Bool.false_eq_true, Field.Value]
          exact ⟨v, hv, rfl⟩
theorem processPointer_of_matches (fc : FloatConv) (typeName : String) :
    ∀ p : Option Message, PointerMatches true typeName p →
      ∃ m dm, p = some m ∧ processMessage fc m = some dm ∧ dm.md.Name = typeName
  | none, h => by simp [PointerMatches] at h
  | some m, h => by
    simp only [PointerMatches] at h
    obtain ⟨dm, hdm, hmd⟩ := processMessage_of_matches fc m h.2
    exact ⟨m, dm, rfl, hdm, by rw [hmd]; exact h.1⟩
theorem processMsgValues_of_matches (fc : FloatConv) (typeName : String) :
    ∀ vs : List FieldValue, ItemsMatch true typeName vs → ∀ acc : List DynValue,
      ∃ items, processMsgValues fc vs acc = some (acc ++ items) ∧
        List.Forall₂ (fun (fv : FieldValue) (item : DynValue) =>
          ∃ m dm, fv.MsgValue = some m ∧ processMessage fc m = some dm ∧
            item = DynValue.message dm) vs items ∧
        ∀ e ∈ items, ∃ dm, e = DynValue.message dm ∧ dm.md.Name = typeName
  | [], _, acc => ⟨[], by simp [processMsgValues], List.Forall₂.nil, by simp⟩
  | FieldValue.mk text mv :: rest, h, acc => by
    simp only [ItemsMatch] at h
    obtain ⟨m, dm, hp, hrun, hname⟩ := processPointer_of_matches fc typeName mv h.1
    obtain ⟨items, hrest, hall, hnames⟩ :=
      processMsgValues_of_matches fc typeName rest h.2 (acc ++ [DynValue.message dm])
    refine ⟨DynValue.message dm :: items, ?_, ?_, ?_⟩
    · simp only [processMsgValues, hp, processPointer, hrun, hrest, List.append_assoc,
        List.singleton_append]
    · exact List.Forall₂.cons ⟨m, dm, by simp [FieldValue.MsgValue, hp], hrun, rfl⟩ hall
    · intro e he
      rcases List.mem_cons.mp he with he | he
      · exact ⟨dm, he, hname⟩
      · exact hnames e he
end

theorem noSharedOneOf_of_plain (md : MessageDescriptor) (fields : List Field)
    (h : ∀ fd ∈ md.Fields, fd.OneOf = none) : NoSharedOneOf md fields := by
  intro f _ g _ _ fdf fdg hf _ o ho
  have := h fdf (find_mem md _ fdf hf).1
  rw [this] at ho
  exact absurd ho (by simp)

/-! ### Message builder: claims -/

theorem choiceRequest_matches : choiceRequest.Matches false := by
  simp only [choiceRequest, Message.Matches, FieldsMatch, FieldMatches, and_true]
  refine ⟨by decide, by decide, by simp, ⟨_, rfl, rfl, rfl, rfl, by simp, ⟨_, rfl⟩⟩,
    ⟨_, rfl, rfl, rfl, rfl, by simp, ⟨_, rfl⟩⟩⟩

theorem labelsRequest_matches : labelsRequest.Matches false := by
  have hentry : ∀ k v : String, (Message.mk entryDescriptor
      [Field.mk FieldType.TYPE_STRING false 1 k none [],
       Field.mk FieldType.TYPE_STRING false 2 v none []]).Matches false := by
    intro k v
    simp only [Message.Matches, FieldsMatch, FieldMatches, and_true]
    exact ⟨by decide, by simp [Field.Tag], by simp,
      ⟨_, rfl, rfl, rfl, rfl, by simp, ⟨_, rfl⟩⟩, ⟨_, rfl, rfl, rfl, rfl, by simp, ⟨_, rfl⟩⟩⟩
  simp only [labelsRequest, Message.Matches, FieldsMatch, FieldMatches, and_true]
  exact ⟨by decide, by decide, by simp, ⟨_, rfl, rfl, rfl, rfl, by simp,
    ⟨⟨rfl, hentry "k" "a"⟩, ⟨rfl, hentry "k" "b"⟩, trivial⟩⟩⟩

/-- C8 as stated fails. The two string fields of `choiceRequest` are the choices of
one oneof; the value tree matches the descriptor and holds the canonical texts `x`
and `y`, `processMessage` returns a message, and reading field 1 back gives the
empty text, not `x`: setting field 2 cleared it. The field of `labelsRequest` is a
map field holding two entries with the same key; it reads back as a map with one
entry, not as a list of two items. -/
theorem processMessage_round_trip_fails_for_oneof :
    (choiceRequest.Matches false ∧
      processMessage floatConv0 choiceRequest
        = some (DynMessage.mk choiceDescriptor [(2, AnyValue.value (DynValue.string "y"))]) ∧
      (DynMessage.mk choiceDescriptor
          [(2, AnyValue.value (DynValue.string "y"))]).GetFieldByNumber 1
        = some (AnyValue.value (DynValue.string "")) ∧
      ¬ ReadsBack floatConv0 (Field.mk FieldType.TYPE_STRING false 1 "x" none [])
        ((DynMessage.mk choiceDescriptor
          [(2, AnyValue.value (DynValue.string "y"))]).GetFieldByNumber 1)) ∧
    (labelsRequest.Matches false ∧
      processMessage floatConv0 labelsRequest
        = some (DynMessage.mk labelsDescriptor [(1, AnyValue.mapValue
            [(AnyValue.value (DynValue.string "k"), AnyValue.value (DynValue.string "b"))])]) ∧
      ¬ ReadsBack floatConv0
        (Field.mk FieldType.TYPE_MESSAGE true 1 "" none [labelEntry "k" "a", labelEntry "k" "b"])
        ((DynMessage.mk labelsDescriptor [(1, AnyValue.mapValue
            [(AnyValue.value (DynValue.string "k"),
              AnyValue.value (DynValue.string "b"))])]).GetFieldByNumber 1)) := by
  refine ⟨⟨choiceRequest_matches, rfl, rfl, ?_⟩, ⟨labelsRequest_matches, rfl, ?_⟩⟩
  · have hget : (DynMessage.mk choiceDescriptor
        [(2, AnyValue.value (DynValue.string "y"))]).GetFieldByNumber 1
        = some (AnyValue.value (DynValue.string "")) := rfl
    rw [hget]
    simp [ReadsBack, Field.FdType, Field.IsRepeated, Field.Value, Denotes]
  · have hget : (DynMessage.mk labelsDescriptor [(1, AnyValue.mapValue
        [(AnyValue.value (DynValue.string "k"),
          AnyValue.value (DynValue.string "b"))])]).GetFieldByNumber 1
        = some (AnyValue.mapValue
          [(AnyValue.value (DynValue.string "k"), AnyValue.value (DynValue.string "b"))]) := rfl
    rw [hget]
    simp [ReadsBack, Field.FdType, Field.IsRepeated]

/-- C8, amended: for a value tree that structurally matches its descriptor (unique
tags, every field the descriptor's field of its tag with the same kind and label,
message-typed fields holding matching messages of the field's type, every scalar
text canonical for its kind) in which no field is a map field and no two fields
are choices of the same oneof, `processMessage` returns a message, and reading
each field back by tag gives the value the text denotes for a singular scalar, the
message built from the nested value for a message field, and for a repeated field
a list with one element per item, in order. -/
theorem processMessage_round_trip (fc : FloatConv) (msg : Message) (h : msg.Matches true) :
    ∃ dm, processMessage fc msg = some dm ∧
      ∀ f ∈ msg.Fields, ReadsBack fc f (dm.GetFieldByNumber f.Tag) := by
  obtain ⟨ref, fields⟩ := msg
  simp only [Message.Matches] at h
  obtain ⟨hnd, htags, hshare, hfields⟩ := h
  have hall := fieldSets_of_fieldsMatch fc ref fields hfields
  obtain ⟨dm, hrun, _, _, hget⟩ := processFields_get fc ref hnd fields
    (DynMessage.NewMessage ref) rfl (fun f hf => (hall f hf).imp fun _ hv => hv.1)
  refine ⟨dm, by simpa only [processMessage] using hrun, ?_⟩
  intro f hf
  obtain ⟨w, hw, hread⟩ := hall f hf
  rw [hget htags (hshare trivial) f hf w hw]
  exact hread

theorem sampleRequest_matches : sampleRequest.Matches true := by
  have hflags : (Message.mk flagsDescriptor
      [Field.mk FieldType.TYPE_BOOL false 1 "true" none []]).Matches true := by
    simp only [Message.Matches, FieldsMatch, FieldMatches, and_true]
    exact ⟨by decide, by decide,
      fun _ => noSharedOneOf_of_plain _ _ (by decide),
      ⟨_, rfl, rfl, rfl, rfl, fun _ => rfl, ⟨_, Or.inl ⟨rfl, rfl⟩⟩⟩⟩
  have hempty : (Message.mk emptyDescriptor []).Matches true := by
    simp only [Message.Matches, FieldsMatch, and_true]
    exact ⟨by decide, by decide, fun _ => noSharedOneOf_of_plain _ _ (by decide)⟩
  simp only [sampleRequest, Message.Matches, FieldsMatch, FieldMatches, and_true]
  refine ⟨by decide, by decide, fun _ => noSharedOneOf_of_plain _ _ (by decide),
    ⟨_, rfl, rfl, rfl, rfl, fun _ => rfl, ⟨_, rfl⟩⟩,
    ⟨_, rfl, rfl, rfl, rfl, fun _ => rfl, ?_⟩,
    ⟨_, rfl, rfl, rfl, rfl, fun _ => rfl, ⟨rfl, hflags⟩⟩,
    ⟨_, rfl, rfl, rfl, rfl, fun _ => rfl, ⟨⟨rfl, hempty⟩, trivial⟩⟩⟩
  intro fv hfv
  simp only [List.mem_cons, List.mem_singleton, List.not_mem_nil, or_false] at hfv
  rcases hfv with rfl | rfl
  · exact ⟨_, 12, by norm_num, by norm_num, by decide, rfl⟩
  · exact ⟨_, -7, by norm_num, by norm_num, by decide, rfl⟩

theorem processMessage_round_trip_witness :
    sampleRequest.Matches true ∧ ∃ dm, processMessage floatConv0 sampleRequest = some dm ∧
      ∀ f ∈ sampleRequest.Fields, ReadsBack floatConv0 f (dm.GetFieldByNumber f.Tag) :=
  ⟨sampleRequest_matches, processMessage_round_trip floatConv0 sampleRequest sampleRequest_matches⟩

end Wombat
